import Mathlib

/-!
Verification of the exact-cover Sudoku solver in `src/sudoku.py`.

The core of the program consists of the index builder inside `solve`
(the dicts `X` and `Y`), the cover/uncover operations `select` and
`deselect`, the most-constrained-choice scan, and the recursive
generator `attempt`.  We embed these shallowly:

* Python dicts keep insertion order, so `X` becomes an association
  list `List (Constraint × Finset Cand)`; value update keeps the
  position of a key, `dict.pop` removes it, and assignment to an
  absent key appends it at the end — exactly Python's behaviour.
* Python sets are modelled as `Finset Cand`.  Where the code iterates
  over a set (`for j in X[i]`, `for row in list(X[i])`) we iterate in
  a fixed sorted order; the set-iteration order of CPython is
  implementation defined, and no property below depends on it (all
  removals/insertions performed inside one iteration commute, and
  failure of `set.remove`/dict lookup is independent of the order).
* A raised `KeyError` is modelled as `Except.error` carrying the
  store `X` at raise time: Python exceptions propagate while leaving
  every mutation already performed in place.
* The generator `attempt` is modelled as a function returning the
  list of yielded solutions together with the final state
  (`X`, `Y`, `solution`) on normal exhaustion, or the error on an
  escaped exception.  Yields collected before an exception are kept,
  because a consumer of the generator observes them.  Recursion is
  driven by a fuel argument; `solve` passes `4*N*N + 1`, which is
  larger than any possible recursion depth because each successful
  `select` removes 4 of the at most `4*N*N` keys of `X`.
-/

namespace Sudoku

/-- A candidate placement `(row, col, num)`; the keys of `Y`. -/
abbrev Cand := Nat × Nat × Nat

/-- The four constraint kinds used as keys of `X` in `solve`:
`('rowcol', i, j)`, `('rownum', i, n)`, `('colnum', j, n)`, `('blcnum', b, n)`. -/
inductive Constraint where
  | rowcol (i j : Nat)
  | rownum (i n : Nat)
  | colnum (j n : Nat)
  | blcnum (b n : Nat)
deriving DecidableEq, Repr

/-- The mutable constraint-to-candidates index `X`, an insertion-ordered dict. -/
abbrev XMap := List (Constraint × Finset Cand)

/-- The static candidate-to-constraints map `Y`, an insertion-ordered dict. -/
abbrev YMap := List (Cand × List Constraint)

/-- Integer square root, `int(N ** 0.5)` on the naturals (defined by a
bounded scan so that it evaluates inside the kernel; agrees with the
floor square root everywhere). -/
def isqrt (n : Nat) : Nat :=
  ((List.range (n + 1)).filter fun b => b * b ≤ n).foldr max 0

/-- Dict lookup: value at the first (unique) occurrence of a key. -/
def lookupA {α β : Type} [DecidableEq α] : List (α × β) → α → Option β
  | [], _ => none
  | (a, b) :: l, a' => if a' = a then some b else lookupA l a'

/-- Dict value update in place: replaces the value at the first occurrence
of the key, keeping its position (Python dicts keep insertion order on
value assignment to an existing key). -/
def setA {α β : Type} [DecidableEq α] : List (α × β) → α → β → List (α × β)
  | [], _, _ => []
  | (a, b) :: l, a', b' => if a' = a then (a, b') :: l else (a, b) :: setA l a' b'

/-- `dict.pop`: removes the first occurrence of the key, keeping the order
of the remaining entries. -/
def eraseA {α β : Type} [DecidableEq α] : List (α × β) → α → List (α × β)
  | [], _ => []
  | (a, b) :: l, a' => if a' = a then l else (a, b) :: eraseA l a'

/-- Assignment `d[a] = b`: update in place if the key is present,
otherwise append at the end of the iteration order. -/
def assignA {α β : Type} [DecidableEq α] (l : List (α × β)) (a : α) (b : β) :
    List (α × β) :=
  if (lookupA l a).isSome then setA l a b else l ++ [(a, b)]

/-- The keys of a dict, in iteration order. -/
def keysA {α β : Type} (l : List (α × β)) : List α := l.map Prod.fst

/-- All triples below the given component bounds, in lexicographic
order. -/
def tripleEnum (a b c : Nat) : List Cand :=
  (List.range a).flatMap fun i =>
    (List.range b).flatMap fun j =>
      (List.range c).map fun k => (i, j, k)

/-- Iterate a Python set: its elements as a list, in a fixed
lexicographic order (a concrete stand-in for CPython's arbitrary but
deterministic set iteration order).  Implemented by a bounded scan so
that it evaluates inside the kernel. -/
def sortCands (A : Finset Cand) : List Cand :=
  (tripleEnum (A.sup (fun p => p.1) + 1) (A.sup (fun p => p.2.1) + 1)
    (A.sup (fun p => p.2.2) + 1)).filter fun p => decide (p ∈ A)

/-- The exceptions that can escape the core: `KeyError` (from a dict
lookup, `dict.pop`, or `set.remove`), the unbound local `i` in
`attempt` when no constraint has fewer than 10 candidates, and fuel
exhaustion (unreachable for the fuel passed by `solve`).  The second
component is the store `X` at raise time. -/
inductive EKind where
  | key
  | unbound
  | fuel
deriving DecidableEq, Repr

/-- An escaped exception together with the state of `X` when it was raised. -/
abbrev Fail := EKind × XMap

instance {ε α : Type _} [DecidableEq ε] [DecidableEq α] : DecidableEq (Except ε α) := fun a b =>
  match a, b with
  | .error e, .error e' =>
    if h : e = e' then .isTrue (by rw [h]) else .isFalse fun hc => h (by injection hc)
  | .error _, .ok _ => .isFalse fun hc => Except.noConfusion hc
  | .ok _, .error _ => .isFalse fun hc => Except.noConfusion hc
  | .ok a1, .ok a2 =>
    if h : a1 = a2 then .isTrue (by rw [h]) else .isFalse fun hc => h (by injection hc)

/-- Inner loop of `select` for one fixed constraint `i` and one candidate
`j`: `for k in Y[j]: if k != i: X[k].remove(j)`.  `X[k]` raises `KeyError`
when `k` is absent, and `set.remove` raises `KeyError` when `j` is not in
the set. -/
def removeOthers (i : Constraint) (j : Cand) : List Constraint → XMap → Except Fail XMap
  | [], X => .ok X
  | k :: ks, X =>
    if k = i then removeOthers i j ks X
    else
      match lookupA X k with
      | none => .error (.key, X)
      | some A => if j ∈ A then removeOthers i j ks (setA X k (A.erase j)) else .error (.key, X)

/-- Middle loop of `select` for one fixed constraint `i`:
`for j in X[i]: for k in Y[j]: ...` over the listed candidates. -/
def coverOne (Y : YMap) (i : Constraint) : List Cand → XMap → Except Fail XMap
  | [], X => .ok X
  | j :: js, X =>
    match lookupA Y j with
    | none => .error (.key, X)
    | some ks =>
      match removeOthers i j ks X with
      | .error e => .error e
      | .ok X1 => coverOne Y i js X1

/-- Outer loop of `select`: for each constraint `i` of the chosen row,
run the removal loops, then `cols.append(X.pop(i))`. -/
def selectGo (Y : YMap) : List Constraint → XMap → List (Finset Cand) →
    Except Fail (List (Finset Cand) × XMap)
  | [], X, cols => .ok (cols, X)
  | i :: is, X, cols =>
    match lookupA X i with
    | none => .error (.key, X)
    | some A =>
      match coverOne Y i (sortCands A) X with
      | .error e => .error e
      | .ok X1 =>
        match lookupA X1 i with
        | none => .error (.key, X1)
        | some A2 => selectGo Y is (eraseA X1 i) (cols ++ [A2])

/-- `select(X, Y, row)` from `src/sudoku.py`: covers the four constraints
of `row`, returning the snapshots `cols` and the mutated `X` (and `Y`,
which it only reads). -/
def select (X : XMap) (Y : YMap) (row : Cand) :
    Except Fail (List (Finset Cand) × XMap × YMap) :=
  match lookupA Y row with
  | none => .error (.key, X)
  | some is =>
    match selectGo Y is X [] with
    | .error e => .error e
    | .ok (cols, X1) => .ok (cols, X1, Y)

/-- Inner loop of `deselect`: `for k in Y[j]: if k != i: X[k].add(j)`. -/
def addOthers (i : Constraint) (j : Cand) : List Constraint → XMap → Except Fail XMap
  | [], X => .ok X
  | k :: ks, X =>
    if k = i then addOthers i j ks X
    else
      match lookupA X k with
      | none => .error (.key, X)
      | some A => addOthers i j ks (setA X k (insert j A))

/-- Middle loop of `deselect` for one restored constraint `i`:
`for j in X[i]: for k in Y[j]: ...`. -/
def restoreOne (Y : YMap) (i : Constraint) : List Cand → XMap → Except Fail XMap
  | [], X => .ok X
  | j :: js, X =>
    match lookupA Y j with
    | none => .error (.key, X)
    | some ks =>
      match addOthers i j ks X with
      | .error e => .error e
      | .ok X1 => restoreOne Y i js X1

/-- Outer loop of `deselect` over `Y[row][::-1]`: `X[i] = cols.pop()`
(assignment to an absent key appends at the end of the dict order;
`cols.pop()` takes the last snapshot), then the re-insertion loops. -/
def deselectGo (Y : YMap) : List Constraint → List (Finset Cand) → XMap →
    Except Fail XMap
  | [], _, X => .ok X
  | i :: is, cols, X =>
    match cols.getLast? with
    | none => .error (.key, X)
    | some A =>
      match restoreOne Y i (sortCands A) (assignA X i A) with
      | .error e => .error e
      | .ok X2 => deselectGo Y is cols.dropLast X2

/-- `deselect(X, Y, row, cols)` from `src/sudoku.py`. -/
def deselect (X : XMap) (Y : YMap) (row : Cand) (cols : List (Finset Cand)) :
    Except Fail (XMap × YMap) :=
  match lookupA Y row with
  | none => .error (.key, X)
  | some is =>
    match deselectGo Y is.reverse cols X with
    | .error e => .error e
    | .ok X1 => .ok (X1, Y)

/-- The most-constrained-choice scan of `attempt`:
`L = 10; for a in X: if len(X[a]) < L: i = a; L = len(X[a]); if L == 1: break`.
Returns the finally bound `i`, or `none` when `i` is never bound
(which makes the subsequent `X[i]` raise `UnboundLocalError`). -/
def chooseGo : List (Constraint × Finset Cand) → Option Constraint → Nat → Option Constraint
  | [], best, _ => best
  | (a, A) :: rest, best, bound =>
    let best1 := if A.card < bound then some a else best
    let bound1 := if A.card < bound then A.card else bound
    if bound1 = 1 then best1 else chooseGo rest best1 bound1

/-- The constraint picked for branching by `attempt`, if any. -/
def choose (X : XMap) : Option Constraint := chooseGo X none 10

/-- The loop `for row in list(X[i]): append; select; recurse; deselect; pop`
of `attempt`, with the recursive `attempt` call abstracted as `att` so
that both functions are structurally recursive (and hence compute). -/
def tryRowsF
    (att : XMap → YMap → List Cand →
      List (List Cand) × Except Fail (XMap × YMap × List Cand)) :
    List Cand → XMap → YMap → List Cand →
      List (List Cand) × Except Fail (XMap × YMap × List Cand)
  | [], X, Y, sol => ([], .ok (X, Y, sol))
  | r :: rs, X, Y, sol =>
    match select X Y r with
    | .error e => ([], .error e)
    | .ok (cols, X1, Y1) =>
      match att X1 Y1 (sol ++ [r]) with
      | (sols, .error e) => (sols, .error e)
      | (sols, .ok (X2, Y2, sol2)) =>
        match deselect X2 Y2 r cols with
        | .error e => (sols, .error e)
        | .ok (X3, Y3) =>
          match tryRowsF att rs X3 Y3 sol2.dropLast with
          | (sols2, out) => (sols ++ sols2, out)

/-- `attempt(X, Y, solution)` from `src/sudoku.py`, as a function from the
store to (the yielded solutions, the final store or the escaped
exception).  `fuel` bounds the recursion depth (see the header comment). -/
def attempt : Nat → XMap → YMap → List Cand →
    List (List Cand) × Except Fail (XMap × YMap × List Cand)
  | 0 => fun X _ _ => ([], .error (.fuel, X))
  | fuel + 1 => fun X Y sol =>
    if X = [] then ([sol], .ok (X, Y, sol))
    else
      match choose X with
      | none => ([], .error (.unbound, X))
      | some i =>
        match lookupA X i with
        | none => ([], .error (.key, X))
        | some A => tryRowsF (attempt fuel) (sortCands A) X Y sol

/-- The inner loop of `attempt` at recursion budget `fuel`. -/
def tryRows (fuel : Nat) (rows : List Cand) (X : XMap) (Y : YMap) (sol : List Cand) :
    List (List Cand) × Except Fail (XMap × YMap × List Cand) :=
  tryRowsF (attempt fuel) rows X Y sol

/-- The first index-building loop of `solve`: all `4*N*N` constraint keys,
in insertion order, each mapped to an empty set. -/
def initX (N : Nat) : XMap :=
  (List.range N).flatMap fun i =>
    (List.range N).flatMap fun j =>
      [(.rowcol i j, ∅), (.rownum i (j+1), ∅), (.colnum i (j+1), ∅), (.blcnum i (j+1), ∅)]

/-- The four constraints of a candidate, in the order listed in `solve`
(with `blc = B * (row // B) + col // B`). -/
def cons4 (B : Nat) (p : Cand) : List Constraint :=
  [.rowcol p.1 p.2.1, .rownum p.1 p.2.2, .colnum p.2.1 p.2.2,
   .blcnum (B * (p.1 / B) + p.2.1 / B) p.2.2]

/-- The second index-building loop of `solve`: `Y`, in insertion order. -/
def buildY (N B : Nat) : YMap :=
  (List.range N).flatMap fun row =>
    (List.range N).flatMap fun col =>
      (List.range N).map fun k => ((row, col, k + 1), cons4 B (row, col, k + 1))

/-- `X[i].add(item)` during index building.  Every constraint in `Y` is a
key of `X` by construction (proved below), so the absent-key case is
unreachable there. -/
def addCand (X : XMap) (k : Constraint) (p : Cand) : XMap :=
  match lookupA X k with
  | none => X
  | some A => setA X k (insert p A)

/-- The third index-building loop of `solve`:
`for item, row in Y.items(): for i in row: X[i].add(item)`. -/
def populate (X : XMap) (Y : YMap) : XMap :=
  Y.foldl (fun X pr => pr.2.foldl (fun X k => addCand X k pr.1) X) X

/-- The fully built initial index `X` of `solve`. -/
def builtX (N B : Nat) : XMap := populate (initX N) (buildY N B)

/-- The row-major cell scan order of the clue-seeding loop. -/
def cells (N : Nat) : List (Nat × Nat) :=
  (List.range N).flatMap fun r => (List.range N).map fun c => (r, c)

/-- A board, as parsed and validated by the excluded I/O layer. -/
abbrev Grid := List (List Nat)

/-- Cell access `board[r][c]` (total; all uses are in bounds for a
validated board). -/
def gridVal (g : Grid) (r c : Nat) : Nat := (g.getD r []).getD c 0

/-- The clue-seeding loop of `solve`:
`for row ...: for col ...: num = board[row][col]; if num: select(X, Y, (row, col, num))`. -/
def seedGo (Y : YMap) (board : Grid) : List (Nat × Nat) → XMap → Except Fail XMap
  | [], X => .ok X
  | rc :: rest, X =>
    let num := gridVal board rc.1 rc.2
    if num = 0 then seedGo Y board rest X
    else
      match select X Y (rc.1, rc.2, num) with
      | .error e => .error e
      | .ok (_, X1, _) => seedGo Y board rest X1

/-- Seeding the clues of `board` into the freshly built indices. -/
def seedX (board : Grid) : Except Fail XMap :=
  let N := board.length
  let B := isqrt N
  seedGo (buildY N B) board (cells N) (builtX N B)

/-- The exceptions `solve` can raise: `Exception('Invalid board.')` from
the caught `KeyError` during seeding, or an exception escaping `attempt`. -/
inductive SolveErr where
  | invalidBoard
  | search (e : EKind)
deriving DecidableEq, Repr

/-- `b[r][c] = n` on a fresh `deepcopy` of the board. -/
def writeCell (g : Grid) (r c n : Nat) : Grid := g.set r ((g.getD r []).set c n)

/-- `b = deepcopy(board); for (r, c, n) in solution: b[r][c] = n`. -/
def writeGrid (board : Grid) (sol : List Cand) : Grid :=
  sol.foldl (fun g p => writeCell g p.1 p.2.1 p.2.2) board

/-- `solve(board)` from `src/sudoku.py`, run to exhaustion: the grids it
yields, and whether it finished normally or raised. -/
def solve (board : Grid) : List Grid × Except SolveErr Unit :=
  let N := board.length
  let B := isqrt N
  let Y := buildY N B
  match seedGo Y board (cells N) (builtX N B) with
  | .error _ => ([], .error .invalidBoard)
  | .ok X =>
    match attempt (4 * N * N + 1) X Y [] with
    | (sols, .ok _) => (sols.map (writeGrid board), .ok ())
    | (sols, .error e) => (sols.map (writeGrid board), .error (.search e.1))

/-- The validation performed by `check_board` before `solve` is called:
square side a perfect square, square shape, all entries at most `N`
(entries are naturals, matching the checked `0 <= x`). -/
def checkBoard (board : Grid) : Bool :=
  let N := board.length
  (isqrt N * isqrt N == N) &&
  board.all (fun row => row.length == N) &&
  board.all (fun row => row.all (fun x => x ≤ N))

/-! ### Specification-side definitions

The following definitions are the mathematical vocabulary used to state
and prove properties of the embedded code: the candidate universe, the
conflict relation, the contents that `X` provably has at every point of
the search, and validity of a finished grid. -/

/-- A candidate placement that lies inside the `N × N` board:
`row, col ∈ [0, N)`, `num ∈ [1, N]`. -/
def validCand (N : Nat) (p : Cand) : Prop :=
  p.1 < N ∧ p.2.1 < N ∧ 1 ≤ p.2.2 ∧ p.2.2 ≤ N

instance (N : Nat) : DecidablePred (validCand N) := fun p => by
  unfold validCand; infer_instance

/-- The candidate universe: exactly the `N ^ 3` valid placements. -/
def allCands (N : Nat) : Finset Cand :=
  Finset.range N ×ˢ Finset.range N ×ˢ Finset.Icc 1 N

/-- The constraint keys created by the first loop of `solve`. -/
def validCons (N : Nat) : Constraint → Prop
  | .rowcol i j => i < N ∧ j < N
  | .rownum i n => i < N ∧ 1 ≤ n ∧ n ≤ N
  | .colnum j n => j < N ∧ 1 ≤ n ∧ n ≤ N
  | .blcnum b n => b < N ∧ 1 ≤ n ∧ n ≤ N

instance (N : Nat) : DecidablePred (validCons N) := fun c => by
  cases c <;> (unfold validCons; infer_instance)

/-- Two candidates conflict when they share a constraint: same cell, or
same number in a shared row, column or block. -/
def conflict (B : Nat) (p q : Cand) : Prop := ∃ k ∈ cons4 B p, k ∈ cons4 B q

instance (B : Nat) (p q : Cand) : Decidable (conflict B p q) := by
  unfold conflict; infer_instance

/-- A constraint already satisfied by one of the selected candidates `S`. -/
def covered (B : Nat) (S : List Cand) (c : Constraint) : Prop :=
  ∃ s ∈ S, c ∈ cons4 B s

instance (B : Nat) (S : List Cand) (c : Constraint) : Decidable (covered B S c) := by
  unfold covered; infer_instance

/-- A selection history: valid candidates, pairwise conflict free. -/
def goodS (N B : Nat) (S : List Cand) : Prop :=
  (∀ p ∈ S, validCand N p) ∧ S.Pairwise (fun p q => ¬ conflict B p q)

/-- A candidate that may still be selected after the selections `S`. -/
def freeCand (N B : Nat) (S : List Cand) (p : Cand) : Prop :=
  validCand N p ∧ ∀ s ∈ S, ¬ conflict B p s

/-- The candidates that satisfy constraint `c` and are compatible with
every selection in `S`: the exact contents of `X[c]` during search. -/
def okSet (N B : Nat) (S : List Cand) (c : Constraint) : Finset Cand :=
  (allCands N).filter fun p => c ∈ cons4 B p ∧ ∀ s ∈ S, ¬ conflict B p s

/-- A candidate untouched by the partial processing of the constraint
list `pr` inside a running `select`/`deselect`. -/
def prFree (B : Nat) (pr : List Constraint) (p : Cand) : Prop :=
  ∀ k ∈ pr, k ∉ cons4 B p

instance (B : Nat) (pr : List Constraint) (p : Cand) : Decidable (prFree B pr p) := by
  unfold prFree; infer_instance

/-- `okSet` restricted to candidates not yet eliminated by the processed
prefix `pr` of a cover operation. -/
def okF (N B : Nat) (S : List Cand) (pr : List Constraint) (c : Constraint) : Finset Cand :=
  (okSet N B S c).filter (prFree B pr)

/-- The mid-cover well-formedness invariant on `X`: the constraints of
the processed prefix `pr` are popped, every other valid constraint not
covered by `S` is a key, and each key holds exactly its compatible,
not-yet-eliminated candidates.  `pr = []` is the invariant between
operations. -/
def pwfX (N B : Nat) (S : List Cand) (pr : List Constraint) (X : XMap) : Prop :=
  (keysA X).Nodup ∧
  (∀ c, c ∈ keysA X ↔ validCons N c ∧ ¬ covered B S c ∧ c ∉ pr) ∧
  (∀ c A, lookupA X c = some A → A = okF N B S pr c)

/-- The well-formedness invariant between cover operations. -/
def wfX (N B : Nat) (S : List Cand) (X : XMap) : Prop := pwfX N B S [] X

/-- The snapshot list a successful `select` produces, given the history
`S`, a processed prefix `pr`, and the remaining constraints. -/
def snapList (N B : Nat) (S : List Cand) : List Constraint → List Constraint → List (Finset Cand)
  | _, [] => []
  | pr, i :: is => okF N B S pr i :: snapList N B S (pr ++ [i]) is

/-- Content equality of two index states: the claims about restoring `X`
are stated up to content (Python dict iteration order differs after a
cover/uncover round trip, since re-inserted keys move to the end). -/
def contentEq (X X' : XMap) : Prop := ∀ c, lookupA X c = lookupA X' c

/-- Liveness of a candidate in `X` under each of its four constraints
(the precondition of claim C4), as an executable check. -/
def liveInB (B : Nat) (X : XMap) (p : Cand) : Bool :=
  (cons4 B p).all fun k =>
    match lookupA X k with
    | some A => decide (p ∈ A)
    | none => false

/-- The clue candidates read off a sequence of cells. -/
def cluesOf (board : Grid) (rcs : List (Nat × Nat)) : List Cand :=
  rcs.filterMap fun rc =>
    let num := gridVal board rc.1 rc.2
    if num = 0 then none else some (rc.1, rc.2, num)

/-- The clues of a board, in the row-major order the seeding loop
processes them. -/
def clues (board : Grid) : List Cand := cluesOf board (cells board.length)

/-- Two given clues of the board violate a common constraint. -/
def cluesConflict (B : Nat) (board : Grid) : Prop :=
  ∃ p ∈ clues board, ∃ q ∈ clues board, p ≠ q ∧ conflict B p q

instance (B : Nat) (board : Grid) : Decidable (cluesConflict B board) := by
  unfold cluesConflict
  infer_instance

/-- The block index of a cell, as used by `solve`. -/
def blockOf (B i j : Nat) : Nat := B * (i / B) + j / B

/-- A completely solved `N × N` grid: right shape, every entry in
`1..N`, and every row, column and block containing each value exactly
once. -/
def validSolution (N B : Nat) (g : Grid) : Prop :=
  g.length = N ∧ (∀ row ∈ g, row.length = N) ∧
  (∀ i < N, ∀ j < N, 1 ≤ gridVal g i j ∧ gridVal g i j ≤ N) ∧
  (∀ i < N, ∀ n, 1 ≤ n → n ≤ N →
    ((Finset.range N).filter fun j => gridVal g i j = n).card = 1) ∧
  (∀ j < N, ∀ n, 1 ≤ n → n ≤ N →
    ((Finset.range N).filter fun i => gridVal g i j = n).card = 1) ∧
  (∀ b < N, ∀ n, 1 ≤ n → n ≤ N →
    ((Finset.range N ×ˢ Finset.range N).filter fun rc =>
      blockOf B rc.1 rc.2 = b ∧ gridVal g rc.1 rc.2 = n).card = 1)

instance (N B : Nat) (g : Grid) : Decidable (validSolution N B g) := by
  unfold validSolution
  infer_instance

/-- A valid completion of the input board: a fully solved grid that
keeps every clue. -/
def completionOf (board g : Grid) : Prop :=
  validSolution board.length (isqrt board.length) g ∧
  ∀ i j, gridVal board i j ≠ 0 → gridVal g i j = gridVal board i j

/-- Constructor tag of a constraint (used to reason about key distinctness). -/
def conTag : Constraint → Nat
  | .rowcol .. => 0
  | .rownum .. => 1
  | .colnum .. => 2
  | .blcnum .. => 3

/-- First payload argument of a constraint. -/
def conFst : Constraint → Nat
  | .rowcol i _ => i
  | .rownum i _ => i
  | .colnum j _ => j
  | .blcnum b _ => b

/-- Second payload argument of a constraint. -/
def conSnd : Constraint → Nat
  | .rowcol _ j => j
  | .rownum _ n => n
  | .colnum _ n => n
  | .blcnum _ n => n

/-- The shape of a validated `N × N` board, preserved by every
`writeCell` during solution output. -/
def gridShape (N : Nat) (g : Grid) : Prop :=
  g.length = N ∧ ∀ row ∈ g, row.length = N

/-- The index state a successful `select` returns. -/
def okX : Except Fail (List (Finset Cand) × XMap × YMap) → Option XMap
  | .ok t => some t.2.1
  | .error _ => none

/-- The index state carried by an escaped exception: the store as the
`raise` left it. -/
def errStore {α : Type _} : Except Fail α → Option XMap
  | .error e => some e.2
  | .ok _ => none

/-- The all-zero (clue-free) `16 × 16` board. -/
def empty16 : Grid := List.replicate 16 (List.replicate 16 0)

/-- A full valid 16×16 solution grid (a shifted pattern), witnessing that
the all-zero 16×16 board has completions. -/
def grid16 : Grid :=
  [[1, 2, 3, 4, 5, 6, 7, 8, 9, 10, 11, 12, 13, 14, 15, 16],
   [5, 6, 7, 8, 9, 10, 11, 12, 13, 14, 15, 16, 1, 2, 3, 4],
   [9, 10, 11, 12, 13, 14, 15, 16, 1, 2, 3, 4, 5, 6, 7, 8],
   [13, 14, 15, 16, 1, 2, 3, 4, 5, 6, 7, 8, 9, 10, 11, 12],
   [2, 3, 4, 5, 6, 7, 8, 9, 10, 11, 12, 13, 14, 15, 16, 1],
   [6, 7, 8, 9, 10, 11, 12, 13, 14, 15, 16, 1, 2, 3, 4, 5],
   [10, 11, 12, 13, 14, 15, 16, 1, 2, 3, 4, 5, 6, 7, 8, 9],
   [14, 15, 16, 1, 2, 3, 4, 5, 6, 7, 8, 9, 10, 11, 12, 13],
   [3, 4, 5, 6, 7, 8, 9, 10, 11, 12, 13, 14, 15, 16, 1, 2],
   [7, 8, 9, 10, 11, 12, 13, 14, 15, 16, 1, 2, 3, 4, 5, 6],
   [11, 12, 13, 14, 15, 16, 1, 2, 3, 4, 5, 6, 7, 8, 9, 10],
   [15, 16, 1, 2, 3, 4, 5, 6, 7, 8, 9, 10, 11, 12, 13, 14],
   [4, 5, 6, 7, 8, 9, 10, 11, 12, 13, 14, 15, 16, 1, 2, 3],
   [8, 9, 10, 11, 12, 13, 14, 15, 16, 1, 2, 3, 4, 5, 6, 7],
   [12, 13, 14, 15, 16, 1, 2, 3, 4, 5, 6, 7, 8, 9, 10, 11],
   [16, 1, 2, 3, 4, 5, 6, 7, 8, 9, 10, 11, 12, 13, 14, 15]]

/-! ### Association-list (Python dict) lemmas -/

section Assoc

variable {α β : Type}

theorem mem_keysA {l : List (α × β)} {a : α} : a ∈ keysA l ↔ ∃ b, (a, b) ∈ l := by
  constructor
  · intro h
    rcases List.mem_map.mp h with ⟨⟨a', b⟩, hm, rfl⟩
    exact ⟨b, hm⟩
  · rintro ⟨b, hm⟩
    exact List.mem_map.mpr ⟨(a, b), hm, rfl⟩

theorem keysA_append (l₁ l₂ : List (α × β)) : keysA (l₁ ++ l₂) = keysA l₁ ++ keysA l₂ :=
  List.map_append _ _ _

theorem lookupA_isSome [DecidableEq α] {l : List (α × β)} {a : α} :
    (lookupA l a).isSome ↔ a ∈ keysA l := by
  induction l with
  | nil => simp [lookupA, keysA]
  | cons hd tl ih =>
    obtain ⟨a', b⟩ := hd
    by_cases h : a = a'
    · subst h
      simp [lookupA, keysA]
    · simp only [lookupA, if_neg h, keysA, List.map_cons, List.mem_cons]
      rw [ih]
      simp [keysA, h]

theorem lookupA_eq_none [DecidableEq α] {l : List (α × β)} {a : α} :
    lookupA l a = none ↔ a ∉ keysA l := by
  rw [← lookupA_isSome, Option.not_isSome_iff_eq_none]

theorem lookupA_mem [DecidableEq α] {l : List (α × β)} {a : α} {b : β}
    (h : lookupA l a = some b) : (a, b) ∈ l := by
  induction l with
  | nil => simp [lookupA] at h
  | cons hd tl ih =>
    obtain ⟨a', b'⟩ := hd
    by_cases ha : a = a'
    · subst ha
      simp [lookupA] at h
      subst h
      exact List.mem_cons_self _ _
    · simp only [lookupA, if_neg ha] at h
      exact List.mem_cons_of_mem _ (ih h)

theorem lookupA_of_mem [DecidableEq α] {l : List (α × β)} {a : α} {b : β}
    (hnd : (keysA l).Nodup) (h : (a, b) ∈ l) : lookupA l a = some b := by
  induction l with
  | nil => simp at h
  | cons hd tl ih =>
    obtain ⟨a', b'⟩ := hd
    simp only [keysA, List.map_cons, List.nodup_cons] at hnd
    rcases List.mem_cons.mp h with h1 | h1
    · rw [Prod.mk.injEq] at h1
      obtain ⟨rfl, rfl⟩ := h1
      simp [lookupA]
    · have ha : a ≠ a' := by
        rintro rfl
        exact hnd.1 (by simpa [keysA] using mem_keysA.mpr ⟨b, h1⟩)
      simp only [lookupA, if_neg ha]
      exact ih (by simpa [keysA] using hnd.2) h1

theorem keysA_setA [DecidableEq α] (l : List (α × β)) (a : α) (b : β) :
    keysA (setA l a b) = keysA l := by
  induction l with
  | nil => rfl
  | cons hd tl ih =>
    obtain ⟨a', b'⟩ := hd
    by_cases h : a = a'
    · subst h
      simp [setA, keysA]
    · simp only [setA, if_neg h, keysA, List.map_cons] at ih ⊢
      rw [ih]

theorem lookupA_setA_self [DecidableEq α] {l : List (α × β)} {a : α} (b : β)
    (h : a ∈ keysA l) : lookupA (setA l a b) a = some b := by
  induction l with
  | nil => simp [keysA] at h
  | cons hd tl ih =>
    obtain ⟨a', b'⟩ := hd
    by_cases ha : a = a'
    · subst ha
      simp [setA, lookupA]
    · simp only [keysA, List.map_cons, List.mem_cons] at h
      rcases h with h | h
      · exact absurd h ha
      · simp only [setA, if_neg ha, lookupA, if_neg ha]
        exact ih (by simpa [keysA] using h)

theorem lookupA_setA_ne [DecidableEq α] {l : List (α × β)} {a a' : α} (b : β)
    (h : a' ≠ a) : lookupA (setA l a b) a' = lookupA l a' := by
  induction l with
  | nil => rfl
  | cons hd tl ih =>
    obtain ⟨a'', b''⟩ := hd
    by_cases ha : a = a''
    · subst ha
      simp only [setA, if_pos rfl, lookupA, if_neg h]
    · simp only [setA, if_neg ha, lookupA]
      by_cases ha' : a' = a'' <;> simp [ha', ih]

theorem length_setA [DecidableEq α] (l : List (α × β)) (a : α) (b : β) :
    (setA l a b).length = l.length := by
  induction l with
  | nil => rfl
  | cons hd tl ih =>
    obtain ⟨a', b'⟩ := hd
    by_cases h : a = a' <;> simp [setA, h, ih]

theorem lookupA_eraseA_ne [DecidableEq α] {l : List (α × β)} {a a' : α}
    (h : a' ≠ a) : lookupA (eraseA l a) a' = lookupA l a' := by
  induction l with
  | nil => rfl
  | cons hd tl ih =>
    obtain ⟨a'', b''⟩ := hd
    by_cases ha : a = a''
    · subst ha
      simp [eraseA, lookupA, h]
    · simp only [eraseA, if_neg ha, lookupA]
      by_cases ha' : a' = a'' <;> simp [ha', ih]

theorem keysA_eraseA_sublist [DecidableEq α] (l : List (α × β)) (a : α) :
    (keysA (eraseA l a)).Sublist (keysA l) := by
  induction l with
  | nil => simp [eraseA]
  | cons hd tl ih =>
    obtain ⟨a', b'⟩ := hd
    by_cases h : a = a'
    · simp only [eraseA, if_pos h, keysA, List.map_cons]
      exact List.sublist_cons_self _ _
    · simp only [eraseA, if_neg h, keysA, List.map_cons]
      exact List.Sublist.cons₂ _ ih

theorem nodup_keysA_eraseA [DecidableEq α] {l : List (α × β)} (a : α)
    (h : (keysA l).Nodup) : (keysA (eraseA l a)).Nodup :=
  (keysA_eraseA_sublist l a).nodup h

theorem lookupA_eraseA_self [DecidableEq α] {l : List (α × β)} {a : α}
    (hnd : (keysA l).Nodup) : lookupA (eraseA l a) a = none := by
  induction l with
  | nil => rfl
  | cons hd tl ih =>
    obtain ⟨a', b'⟩ := hd
    simp only [keysA, List.map_cons, List.nodup_cons] at hnd
    by_cases h : a = a'
    · subst h
      simp only [eraseA, if_pos rfl]
      exact lookupA_eq_none.mpr (by simpa [keysA] using hnd.1)
    · simp only [eraseA, if_neg h, lookupA, if_neg h]
      exact ih (by simpa [keysA] using hnd.2)

theorem mem_keysA_eraseA [DecidableEq α] {l : List (α × β)} {a a' : α}
    (hnd : (keysA l).Nodup) :
    a' ∈ keysA (eraseA l a) ↔ a' ∈ keysA l ∧ a' ≠ a := by
  constructor
  · intro h
    refine ⟨(keysA_eraseA_sublist l a).mem h, ?_⟩
    rintro rfl
    rw [← lookupA_isSome, lookupA_eraseA_self hnd] at h
    simp at h
  · rintro ⟨h, hne⟩
    rw [← lookupA_isSome] at h ⊢
    rwa [lookupA_eraseA_ne hne]

theorem lookupA_append_left [DecidableEq α] {l₁ l₂ : List (α × β)} {a : α} {b : β}
    (h : lookupA l₁ a = some b) : lookupA (l₁ ++ l₂) a = some b := by
  induction l₁ with
  | nil => simp [lookupA] at h
  | cons hd tl ih =>
    obtain ⟨a', b'⟩ := hd
    by_cases ha : a = a'
    · subst ha
      simp only [lookupA, if_pos rfl] at h ⊢
      exact h
    · simp only [List.cons_append, lookupA, if_neg ha] at h ⊢
      exact ih h

theorem lookupA_append_right [DecidableEq α] {l₁ l₂ : List (α × β)} {a : α}
    (h : lookupA l₁ a = none) : lookupA (l₁ ++ l₂) a = lookupA l₂ a := by
  induction l₁ with
  | nil => rfl
  | cons hd tl ih =>
    obtain ⟨a', b'⟩ := hd
    by_cases ha : a = a'
    · subst ha
      simp only [lookupA, if_pos rfl] at h
      exact absurd h (by simp)
    · simp only [List.cons_append, lookupA, if_neg ha] at h ⊢
      exact ih h

theorem lookupA_assignA_self [DecidableEq α] (l : List (α × β)) (a : α) (b : β) :
    lookupA (assignA l a b) a = some b := by
  unfold assignA
  by_cases hs : (lookupA l a).isSome = true
  · rw [if_pos hs]
    exact lookupA_setA_self b (lookupA_isSome.mp hs)
  · rw [if_neg hs]
    rw [lookupA_append_right (Option.not_isSome_iff_eq_none.mp hs)]
    simp [lookupA]

theorem lookupA_assignA_ne [DecidableEq α] {l : List (α × β)} {a a' : α} (b : β)
    (h : a' ≠ a) : lookupA (assignA l a b) a' = lookupA l a' := by
  unfold assignA
  by_cases hs : (lookupA l a).isSome = true
  · rw [if_pos hs]
    exact lookupA_setA_ne b h
  · rw [if_neg hs]
    rcases hl : lookupA l a' with _ | b'
    · rw [lookupA_append_right hl]
      simp [lookupA, h]
    · exact lookupA_append_left hl

theorem mem_keysA_assignA [DecidableEq α] {l : List (α × β)} {a a' : α} (b : β) :
    a' ∈ keysA (assignA l a b) ↔ a' ∈ keysA l ∨ a' = a := by
  unfold assignA
  by_cases hs : (lookupA l a).isSome = true
  · rw [if_pos hs, keysA_setA]
    constructor
    · exact Or.inl
    · rintro (h | rfl)
      · exact h
      · exact lookupA_isSome.mp hs
  · rw [if_neg hs, keysA_append]
    simp [keysA]

theorem nodup_keysA_assignA [DecidableEq α] {l : List (α × β)} {a : α} (b : β)
    (hnd : (keysA l).Nodup) : (keysA (assignA l a b)).Nodup := by
  unfold assignA
  by_cases hs : (lookupA l a).isSome = true
  · rw [if_pos hs, keysA_setA]
    exact hnd
  · rw [if_neg hs, keysA_append]
    have ha : a ∉ keysA l := lookupA_eq_none.mp (Option.not_isSome_iff_eq_none.mp hs)
    refine List.Nodup.append hnd (List.nodup_singleton a) ?_
    intro x hx hx'
    simp [keysA] at hx'
    subst hx'
    exact ha hx

end Assoc

/-! ### Candidates, constraints and the search invariant: basic lemmas -/

theorem mem_tripleEnum {a b c : Nat} {p : Cand} :
    p ∈ tripleEnum a b c ↔ p.1 < a ∧ p.2.1 < b ∧ p.2.2 < c := by
  obtain ⟨i, j, k⟩ := p
  unfold tripleEnum
  simp only [List.mem_flatMap, List.mem_map, List.mem_range]
  constructor
  · rintro ⟨i2, hi2, j2, hj2, k2, hk2, h⟩
    rw [Prod.mk.injEq, Prod.mk.injEq] at h
    obtain ⟨rfl, rfl, rfl⟩ := h
    exact ⟨hi2, hj2, hk2⟩
  · rintro ⟨hi, hj, hk⟩
    exact ⟨i, hi, j, hj, k, hk, rfl⟩

theorem nodup_tripleEnum (a b c : Nat) : (tripleEnum a b c).Nodup := by
  unfold tripleEnum
  rw [List.nodup_flatMap]
  constructor
  · intro i _
    rw [List.nodup_flatMap]
    constructor
    · intro j _
      refine List.Nodup.map ?_ (List.nodup_range _)
      intro x y h
      simpa using congrArg (fun q : Cand => q.2.2) h
    · refine (List.pairwise_lt_range _).imp ?_
      intro x y hxy q hqx hqy
      simp only [List.mem_map, List.mem_range] at hqx hqy
      obtain ⟨k, _, rfl⟩ := hqx
      obtain ⟨k2, _, hq⟩ := hqy
      have : y = x := by simpa using congrArg (fun q : Cand => q.2.1) hq
      omega
  · refine (List.pairwise_lt_range _).imp ?_
    intro x y hxy q hqx hqy
    simp only [List.mem_flatMap, List.mem_map, List.mem_range] at hqx hqy
    obtain ⟨j, _, k, _, rfl⟩ := hqx
    obtain ⟨j2, _, k2, _, hq⟩ := hqy
    have : y = x := by simpa using congrArg (fun q : Cand => q.1) hq
    omega

theorem mem_sortCands {A : Finset Cand} {p : Cand} : p ∈ sortCands A ↔ p ∈ A := by
  unfold sortCands
  rw [List.mem_filter]
  constructor
  · rintro ⟨-, h⟩
    exact of_decide_eq_true h
  · intro hp
    refine ⟨?_, decide_eq_true hp⟩
    rw [mem_tripleEnum]
    have h1 : p.1 ≤ A.sup fun q : Cand => q.1 :=
      @Finset.le_sup Nat Cand _ _ A (fun q : Cand => q.1) p hp
    have h2 : p.2.1 ≤ A.sup fun q : Cand => q.2.1 :=
      @Finset.le_sup Nat Cand _ _ A (fun q : Cand => q.2.1) p hp
    have h3 : p.2.2 ≤ A.sup fun q : Cand => q.2.2 :=
      @Finset.le_sup Nat Cand _ _ A (fun q : Cand => q.2.2) p hp
    omega

theorem nodup_sortCands (A : Finset Cand) : (sortCands A).Nodup :=
  List.Nodup.filter _ (nodup_tripleEnum _ _ _)

theorem toFinset_sortCands (A : Finset Cand) : (sortCands A).toFinset = A :=
  Finset.ext fun a => by rw [List.mem_toFinset, mem_sortCands]

theorem mem_allCands {N : Nat} {p : Cand} : p ∈ allCands N ↔ validCand N p := by
  obtain ⟨r, c, n⟩ := p
  simp [allCands, validCand, Finset.mem_Icc, and_assoc]

theorem cons4_nodup (B : Nat) (p : Cand) : (cons4 B p).Nodup := by
  simp [cons4]

theorem mem_cons4 {B : Nat} {p : Cand} {k : Constraint} :
    k ∈ cons4 B p ↔ k = .rowcol p.1 p.2.1 ∨ k = .rownum p.1 p.2.2 ∨
      k = .colnum p.2.1 p.2.2 ∨ k = .blcnum (B * (p.1 / B) + p.2.1 / B) p.2.2 := by
  simp [cons4]

theorem conflict_comm {B : Nat} {p q : Cand} : conflict B p q ↔ conflict B q p := by
  unfold conflict
  constructor <;> (rintro ⟨k, h1, h2⟩; exact ⟨k, h2, h1⟩)

theorem conflict_self (B : Nat) (p : Cand) : conflict B p p :=
  ⟨.rowcol p.1 p.2.1, by simp [cons4], by simp [cons4]⟩

theorem validCons_of_mem_cons4 {N B : Nat} {p : Cand} {k : Constraint}
    (hB : B * B = N) (hp : validCand N p) (hk : k ∈ cons4 B p) : validCons N k := by
  obtain ⟨h1, h2, h3, h4⟩ := hp
  have hN : 1 ≤ N := Nat.le_trans h3 h4
  have hBpos : 0 < B := by
    rcases Nat.eq_zero_or_pos B with h | h
    · subst h; omega
    · exact h
  have hq1 : p.1 / B < B := Nat.div_lt_iff_lt_mul hBpos |>.mpr (by omega)
  have hq2 : p.2.1 / B < B := Nat.div_lt_iff_lt_mul hBpos |>.mpr (by omega)
  have hblk : B * (p.1 / B) + p.2.1 / B < N := by
    have h5 : B * (p.1 / B) + p.2.1 / B < B * (p.1 / B + 1) := by
      rw [Nat.mul_succ]; omega
    have h6 : B * (p.1 / B + 1) ≤ B * B := Nat.mul_le_mul_left B hq1
    omega
  rcases mem_cons4.mp hk with h | h | h | h <;> subst h <;>
    simp [validCons, h1, h2, h3, h4, hblk]

theorem mem_okSet {N B : Nat} {S : List Cand} {c : Constraint} {p : Cand} :
    p ∈ okSet N B S c ↔
      validCand N p ∧ c ∈ cons4 B p ∧ ∀ s ∈ S, ¬ conflict B p s := by
  simp [okSet, Finset.mem_filter, mem_allCands, and_assoc]

theorem mem_okF {N B : Nat} {S : List Cand} {pr : List Constraint} {c : Constraint}
    {p : Cand} : p ∈ okF N B S pr c ↔ p ∈ okSet N B S c ∧ prFree B pr p :=
  Finset.mem_filter

theorem okF_nil (N B : Nat) (S : List Cand) (c : Constraint) :
    okF N B S [] c = okSet N B S c := by
  ext p
  simp [mem_okF, prFree]

theorem prFree_append {B : Nat} {pr : List Constraint} {i : Constraint} {p : Cand} :
    prFree B (pr ++ [i]) p ↔ prFree B pr p ∧ i ∉ cons4 B p := by
  simp only [prFree, List.mem_append, List.mem_singleton]
  constructor
  · intro h
    exact ⟨fun k hk => h k (Or.inl hk), h i (Or.inr rfl)⟩
  · rintro ⟨h1, h2⟩ k (hk | rfl)
    · exact h1 k hk
    · exact h2

theorem prFree_nil {B : Nat} {p : Cand} : prFree B [] p := by
  simp [prFree]

theorem mem_okSet_append {N B : Nat} {S : List Cand} {r : Cand} {c : Constraint}
    {p : Cand} :
    p ∈ okSet N B (S ++ [r]) c ↔ p ∈ okSet N B S c ∧ ¬ conflict B p r := by
  simp only [mem_okSet, List.forall_mem_append, List.forall_mem_singleton]
  tauto

theorem covered_append {B : Nat} {S : List Cand} {r : Cand} {c : Constraint} :
    covered B (S ++ [r]) c ↔ covered B S c ∨ c ∈ cons4 B r := by
  simp only [covered, List.mem_append, List.mem_singleton]
  constructor
  · rintro ⟨s, hs | rfl, hc⟩
    · exact Or.inl ⟨s, hs, hc⟩
    · exact Or.inr hc
  · rintro (⟨s, hs, hc⟩ | hc)
    · exact ⟨s, Or.inl hs, hc⟩
    · exact ⟨r, Or.inr rfl, hc⟩

theorem not_covered_of_free {N B : Nat} {S : List Cand} {r : Cand}
    (hr : freeCand N B S r) {k : Constraint} (hk : k ∈ cons4 B r) :
    ¬ covered B S k := by
  rintro ⟨s, hs, hks⟩
  exact hr.2 s hs ⟨k, hk, hks⟩

theorem goodS_append {N B : Nat} {S : List Cand} {r : Cand}
    (hS : goodS N B S) (hr : freeCand N B S r) : goodS N B (S ++ [r]) := by
  constructor
  · intro p hp
    rcases List.mem_append.mp hp with h | h
    · exact hS.1 p h
    · rw [List.mem_singleton] at h
      subst h
      exact hr.1
  · rw [List.pairwise_append]
    refine ⟨hS.2, List.pairwise_singleton _ _, ?_⟩
    intro p hp q hq
    rw [List.mem_singleton] at hq
    subst hq
    exact fun hc => hr.2 p hp (conflict_comm.mp hc)

theorem freeCand_of_mem_okSet {N B : Nat} {S : List Cand} {c : Constraint}
    {p : Cand} (h : p ∈ okSet N B S c) : freeCand N B S p :=
  ⟨(mem_okSet.mp h).1, (mem_okSet.mp h).2.2⟩

theorem pwfX_lookup_of_key {N B : Nat} {S : List Cand} {pr : List Constraint}
    {X : XMap} (h : pwfX N B S pr X) {c : Constraint} (hc : c ∈ keysA X) :
    lookupA X c = some (okF N B S pr c) := by
  rcases Option.isSome_iff_exists.mp (lookupA_isSome.mpr hc) with ⟨A, hA⟩
  rw [hA, h.2.2 c A hA]

theorem pwfX_key_iff {N B : Nat} {S : List Cand} {pr : List Constraint}
    {X : XMap} (h : pwfX N B S pr X) {c : Constraint} :
    c ∈ keysA X ↔ validCons N c ∧ ¬ covered B S c ∧ c ∉ pr :=
  h.2.1 c

/-! ### Pointwise characterisation of the four inner loops -/

theorem removeOthers_spec {i : Constraint} {j : Cand} :
    ∀ (ks : List Constraint) (X : XMap), ks.Nodup →
    (∀ k ∈ ks, k ≠ i → ∃ A, lookupA X k = some A ∧ j ∈ A) →
    ∃ X', removeOthers i j ks X = .ok X' ∧ keysA X' = keysA X ∧
      ∀ c, lookupA X' c =
        if c ∈ ks ∧ c ≠ i then (lookupA X c).map (fun A => A.erase j) else lookupA X c := by
  intro ks
  induction ks with
  | nil =>
    intro X _ _
    exact ⟨X, rfl, rfl, fun c => by simp⟩
  | cons k ks ih =>
    intro X hnd hpre
    rw [List.nodup_cons] at hnd
    by_cases hki : k = i
    · subst hki
      obtain ⟨X', h1, h2, h3⟩ := ih X hnd.2 (fun k' hk' => hpre k' (List.mem_cons_of_mem _ hk'))
      refine ⟨X', by simpa [removeOthers] using h1, h2, fun c => ?_⟩
      rw [h3 c]
      by_cases hc : c ∈ ks ∧ c ≠ k
      · rw [if_pos hc, if_pos ⟨List.mem_cons_of_mem _ hc.1, hc.2⟩]
      · rw [if_neg hc]
        by_cases hc2 : (c ∈ k :: ks ∧ c ≠ k)
        · exact absurd ⟨(List.mem_cons.mp hc2.1).resolve_left hc2.2, hc2.2⟩ hc
        · rw [if_neg hc2]
    · obtain ⟨A, hA, hjA⟩ := hpre k (List.mem_cons_self _ _) hki
      have hkey : k ∈ keysA X := lookupA_isSome.mp (by rw [hA]; rfl)
      have hpre' : ∀ k' ∈ ks, k' ≠ i →
          ∃ A', lookupA (setA X k (A.erase j)) k' = some A' ∧ j ∈ A' := by
        intro k' hk' hk'i
        obtain ⟨A', hA', hjA'⟩ := hpre k' (List.mem_cons_of_mem _ hk') hk'i
        have hk'k : k' ≠ k := fun h => hnd.1 (h ▸ hk')
        exact ⟨A', by rw [lookupA_setA_ne _ hk'k]; exact hA', hjA'⟩
      obtain ⟨X', h1, h2, h3⟩ := ih (setA X k (A.erase j)) hnd.2 hpre'
      refine ⟨X', ?_, by rw [h2, keysA_setA], fun c => ?_⟩
      · simpa [removeOthers, hki, hA, hjA] using h1
      · rw [h3 c]
        by_cases hck : c = k
        · subst hck
          have hnk : c ∉ ks := hnd.1
          rw [if_neg (fun h => hnk h.1), if_pos ⟨List.mem_cons_self _ _, hki⟩,
            lookupA_setA_self _ hkey, hA]
          rfl
        · rw [lookupA_setA_ne _ hck]
          by_cases hc : c ∈ ks ∧ c ≠ i
          · rw [if_pos hc, if_pos ⟨List.mem_cons_of_mem _ hc.1, hc.2⟩]
          · rw [if_neg hc]
            by_cases hc2 : (c ∈ k :: ks ∧ c ≠ i)
            · exact absurd ⟨(List.mem_cons.mp hc2.1).resolve_left hck, hc2.2⟩ hc
            · rw [if_neg hc2]

theorem coverOne_spec {B : Nat} {Y : YMap} {i : Constraint} :
    ∀ (js : List Cand) (X : XMap), js.Nodup →
    (∀ j ∈ js, lookupA Y j = some (cons4 B j)) →
    (∀ j ∈ js, ∀ k ∈ cons4 B j, k ≠ i → ∃ A, lookupA X k = some A ∧ j ∈ A) →
    ∃ X', coverOne Y i js X = .ok X' ∧ keysA X' = keysA X ∧
      ∀ c, lookupA X' c = (lookupA X c).map (fun A =>
        if c = i then A else A \ (js.filter (fun j => decide (c ∈ cons4 B j))).toFinset) := by
  intro js
  induction js with
  | nil =>
    intro X _ _ _
    refine ⟨X, rfl, rfl, fun c => ?_⟩
    rcases lookupA X c with _ | A <;> simp
  | cons j js ih =>
    intro X hnd hY hpre
    rw [List.nodup_cons] at hnd
    obtain ⟨X1, h1, h2, h3⟩ := removeOthers_spec (cons4 B j) X (cons4_nodup B j)
      (hpre j (List.mem_cons_self _ _))
    have hpre' : ∀ j' ∈ js, ∀ k ∈ cons4 B j', k ≠ i →
        ∃ A, lookupA X1 k = some A ∧ j' ∈ A := by
      intro j' hj' k hk hki
      obtain ⟨A, hA, hjA⟩ := hpre j' (List.mem_cons_of_mem _ hj') k hk hki
      have hj'j : j' ≠ j := fun h => hnd.1 (h ▸ hj')
      rw [h3 k]
      by_cases hcond : k ∈ cons4 B j ∧ k ≠ i
      · rw [if_pos hcond, hA]
        exact ⟨A.erase j, rfl, Finset.mem_erase.mpr ⟨hj'j, hjA⟩⟩
      · rw [if_neg hcond]
        exact ⟨A, hA, hjA⟩
    obtain ⟨X', h4, h5, h6⟩ := ih X1 hnd.2
      (fun j' hj' => hY j' (List.mem_cons_of_mem _ hj')) hpre'
    refine ⟨X', ?_, by rw [h5, h2], fun c => ?_⟩
    · simpa [coverOne, hY j (List.mem_cons_self _ _), h1] using h4
    · rw [h6 c, h3 c]
      by_cases hci : c = i
      · subst hci
        have hnc : ¬ (c ∈ cons4 B j ∧ c ≠ c) := fun h => h.2 rfl
        rw [if_neg hnc]
        rcases lookupA X c with _ | A <;> simp
      · by_cases hcj : c ∈ cons4 B j
        · rw [if_pos ⟨hcj, hci⟩]
          rcases lookupA X c with _ | A
          · simp
          · simp only [Option.map_some']
            congr 1
            rw [if_neg hci, if_neg hci]
            ext p
            simp only [Finset.mem_sdiff, Finset.mem_erase, List.mem_toFinset,
              List.mem_filter, List.mem_cons, decide_eq_true_eq]
            constructor
            · rintro ⟨⟨hpj, hpA⟩, hkill⟩
              refine ⟨hpA, ?_⟩
              rintro ⟨rfl | hmem, hc4⟩
              · exact hpj rfl
              · exact hkill ⟨hmem, hc4⟩
            · rintro ⟨hpA, hkill⟩
              refine ⟨⟨fun hpj => hkill ⟨Or.inl hpj, hpj ▸ hcj⟩, hpA⟩, ?_⟩
              rintro ⟨hmem, hc4⟩
              exact hkill ⟨Or.inr hmem, hc4⟩
        · rw [if_neg (fun h => hcj h.1)]
          rcases lookupA X c with _ | A
          · simp
          · simp only [Option.map_some']
            congr 1
            rw [if_neg hci, if_neg hci]
            congr 1
            ext p
            simp only [List.mem_toFinset, List.mem_filter, List.mem_cons,
              decide_eq_true_eq]
            constructor
            · rintro ⟨hmem, hc4⟩
              exact ⟨Or.inr hmem, hc4⟩
            · rintro ⟨rfl | hmem, hc4⟩
              · exact absurd hc4 hcj
              · exact ⟨hmem, hc4⟩

theorem addOthers_spec (i : Constraint) (j : Cand) :
    ∀ (ks : List Constraint) (X : XMap),
    (∀ k ∈ ks, k ≠ i → k ∈ keysA X) →
    ∃ X', addOthers i j ks X = .ok X' ∧ keysA X' = keysA X ∧
      ∀ c, lookupA X' c =
        if c ∈ ks ∧ c ≠ i then (lookupA X c).map (insert j) else lookupA X c := by
  intro ks
  induction ks with
  | nil =>
    intro X _
    exact ⟨X, rfl, rfl, fun c => by simp⟩
  | cons k ks ih =>
    intro X hpre
    by_cases hki : k = i
    · subst hki
      obtain ⟨X', h1, h2, h3⟩ := ih X (fun k' hk' => hpre k' (List.mem_cons_of_mem _ hk'))
      refine ⟨X', by simpa [addOthers] using h1, h2, fun c => ?_⟩
      rw [h3 c]
      by_cases hc : c ∈ ks ∧ c ≠ k
      · rw [if_pos hc, if_pos ⟨List.mem_cons_of_mem _ hc.1, hc.2⟩]
      · rw [if_neg hc]
        by_cases hc2 : (c ∈ k :: ks ∧ c ≠ k)
        · exact absurd ⟨(List.mem_cons.mp hc2.1).resolve_left hc2.2, hc2.2⟩ hc
        · rw [if_neg hc2]
    · have hkey : k ∈ keysA X := hpre k (List.mem_cons_self _ _) hki
      obtain ⟨A, hA⟩ := Option.isSome_iff_exists.mp (lookupA_isSome.mpr hkey)
      have hpre' : ∀ k' ∈ ks, k' ≠ i → k' ∈ keysA (setA X k (insert j A)) := by
        intro k' hk' hk'i
        by_cases hk'k : k' = k
        · subst hk'k
          exact lookupA_isSome.mp (by rw [lookupA_setA_self _ hkey]; rfl)
        · rw [← lookupA_isSome, lookupA_setA_ne _ hk'k]
          exact lookupA_isSome.mpr (hpre k' (List.mem_cons_of_mem _ hk') hk'i)
      obtain ⟨X', h1, h2, h3⟩ := ih (setA X k (insert j A)) hpre'
      refine ⟨X', ?_, by rw [h2, keysA_setA], fun c => ?_⟩
      · simpa [addOthers, hki, hA] using h1
      · rw [h3 c]
        by_cases hck : c = k
        · subst hck
          have hsetc : lookupA (setA X c (insert j A)) c = some (insert j A) :=
            lookupA_setA_self _ hkey
          by_cases hc : c ∈ ks ∧ c ≠ i
          · rw [if_pos hc, if_pos ⟨List.mem_cons_self _ _, hki⟩, hsetc, hA]
            simp [Finset.insert_idem]
          · rw [if_neg hc, if_pos ⟨List.mem_cons_self _ _, hki⟩, hsetc, hA]
            rfl
        · rw [lookupA_setA_ne _ hck]
          by_cases hc : c ∈ ks ∧ c ≠ i
          · rw [if_pos hc, if_pos ⟨List.mem_cons_of_mem _ hc.1, hc.2⟩]
          · rw [if_neg hc]
            by_cases hc2 : (c ∈ k :: ks ∧ c ≠ i)
            · exact absurd ⟨(List.mem_cons.mp hc2.1).resolve_left hck, hc2.2⟩ hc
            · rw [if_neg hc2]

theorem restoreOne_spec {B : Nat} {Y : YMap} {i : Constraint} :
    ∀ (js : List Cand) (X : XMap),
    (∀ j ∈ js, lookupA Y j = some (cons4 B j)) →
    (∀ j ∈ js, ∀ k ∈ cons4 B j, k ≠ i → k ∈ keysA X) →
    ∃ X', restoreOne Y i js X = .ok X' ∧ keysA X' = keysA X ∧
      ∀ c, lookupA X' c = (lookupA X c).map (fun A =>
        if c = i then A else A ∪ (js.filter (fun j => decide (c ∈ cons4 B j))).toFinset) := by
  intro js
  induction js with
  | nil =>
    intro X _ _
    refine ⟨X, rfl, rfl, fun c => ?_⟩
    rcases lookupA X c with _ | A <;> simp
  | cons j js ih =>
    intro X hY hpre
    obtain ⟨X1, h1, h2, h3⟩ := addOthers_spec i j (cons4 B j) X
      (fun k hk hki => hpre j (List.mem_cons_self _ _) k hk hki)
    have hpre' : ∀ j' ∈ js, ∀ k ∈ cons4 B j', k ≠ i → k ∈ keysA X1 := by
      intro j' hj' k hk hki
      rw [h2]
      exact hpre j' (List.mem_cons_of_mem _ hj') k hk hki
    obtain ⟨X', h4, h5, h6⟩ := ih X1
      (fun j' hj' => hY j' (List.mem_cons_of_mem _ hj')) hpre'
    refine ⟨X', ?_, by rw [h5, h2], fun c => ?_⟩
    · simpa [restoreOne, hY j (List.mem_cons_self _ _), h1] using h4
    · rw [h6 c, h3 c]
      by_cases hci : c = i
      · subst hci
        have hnc : ¬ (c ∈ cons4 B j ∧ c ≠ c) := fun h => h.2 rfl
        rw [if_neg hnc]
        rcases lookupA X c with _ | A <;> simp
      · by_cases hcj : c ∈ cons4 B j
        · rw [if_pos ⟨hcj, hci⟩]
          rcases lookupA X c with _ | A
          · simp
          · simp only [Option.map_some']
            congr 1
            rw [if_neg hci, if_neg hci]
            ext p
            simp only [Finset.mem_union, Finset.mem_insert, List.mem_toFinset,
              List.mem_filter, List.mem_cons, decide_eq_true_eq]
            constructor
            · rintro ((rfl | hpA) | ⟨hmem, hc4⟩)
              · exact Or.inr ⟨Or.inl rfl, hcj⟩
              · exact Or.inl hpA
              · exact Or.inr ⟨Or.inr hmem, hc4⟩
            · rintro (hpA | ⟨rfl | hmem, hc4⟩)
              · exact Or.inl (Or.inr hpA)
              · exact Or.inl (Or.inl rfl)
              · exact Or.inr ⟨hmem, hc4⟩
        · rw [if_neg (fun h => hcj h.1)]
          rcases lookupA X c with _ | A
          · simp
          · simp only [Option.map_some']
            congr 1
            rw [if_neg hci, if_neg hci]
            congr 1
            ext p
            simp only [List.mem_toFinset, List.mem_filter, List.mem_cons,
              decide_eq_true_eq]
            constructor
            · rintro ⟨hmem, hc4⟩
              exact ⟨Or.inr hmem, hc4⟩
            · rintro ⟨rfl | hmem, hc4⟩
              · exact absurd hc4 hcj
              · exact ⟨hmem, hc4⟩

theorem snapList_append (N B : Nat) (S : List Cand) :
    ∀ (l₁ l₂ : List Constraint) (pr : List Constraint),
    snapList N B S pr (l₁ ++ l₂) =
      snapList N B S pr l₁ ++ snapList N B S (pr ++ l₁) l₂ := by
  intro l₁
  induction l₁ with
  | nil => intro l₂ pr; simp [snapList]
  | cons i l₁ ih =>
    intro l₂ pr
    show okF N B S pr i :: snapList N B S (pr ++ [i]) (l₁ ++ l₂) =
      okF N B S pr i :: (snapList N B S (pr ++ [i]) l₁ ++ snapList N B S (pr ++ i :: l₁) l₂)
    rw [ih l₂ (pr ++ [i])]
    simp [List.append_assoc]

theorem okF_cons4 {N B : Nat} {S : List Cand} {r : Cand} (c : Constraint) :
    okF N B S (cons4 B r) c = okSet N B (S ++ [r]) c := by
  ext p
  rw [mem_okF, mem_okSet_append]
  constructor
  · rintro ⟨h1, h2⟩
    refine ⟨h1, fun hc => ?_⟩
    obtain ⟨k, hk1, hk2⟩ := hc
    exact h2 k hk2 hk1
  · rintro ⟨h1, h2⟩
    exact ⟨h1, fun k hk1 hk2 => h2 ⟨k, hk2, hk1⟩⟩

theorem pwfX_cons4_iff {N B : Nat} {S : List Cand} {r : Cand} {X : XMap} :
    pwfX N B S (cons4 B r) X ↔ wfX N B (S ++ [r]) X := by
  unfold wfX pwfX
  constructor
  · rintro ⟨h1, h2, h3⟩
    refine ⟨h1, fun c => ?_, fun c A hA => ?_⟩
    · rw [h2 c, covered_append]
      simp only [List.not_mem_nil, not_false_iff, and_true]
      tauto
    · rw [h3 c A hA, okF_cons4, ← okF_nil N B (S ++ [r])]
  · rintro ⟨h1, h2, h3⟩
    refine ⟨h1, fun c => ?_, fun c A hA => ?_⟩
    · rw [h2 c, covered_append]
      simp only [List.not_mem_nil, not_false_iff, and_true]
      tauto
    · rw [h3 c A hA, okF_nil, ← okF_cons4]

theorem exists_first_split {α : Type} {P : α → Prop} [DecidablePred P] :
    ∀ {l : List α}, (∃ k ∈ l, P k) →
    ∃ l₁ k l₂, l = l₁ ++ k :: l₂ ∧ P k ∧ ∀ x ∈ l₁, ¬ P x := by
  intro l
  induction l with
  | nil => rintro ⟨k, hk, _⟩; simp at hk
  | cons a l ih =>
    intro h
    by_cases hPa : P a
    · exact ⟨[], a, l, rfl, hPa, by simp⟩
    · have h' : ∃ k ∈ l, P k := by
        rcases h with ⟨k, hk, hPk⟩
        rcases List.mem_cons.mp hk with rfl | hk
        · exact absurd hPk hPa
        · exact ⟨k, hk, hPk⟩
      obtain ⟨l₁, k, l₂, rfl, hPk, hfirst⟩ := ih h'
      refine ⟨a :: l₁, k, l₂, rfl, hPk, ?_⟩
      intro x hx
      rcases List.mem_cons.mp hx with rfl | hx
      · exact hPa
      · exact hfirst x hx

theorem selectGo_append {Y : YMap} :
    ∀ (l₁ l₂ : List Constraint) (X : XMap) (cols : List (Finset Cand)),
    selectGo Y (l₁ ++ l₂) X cols =
      match selectGo Y l₁ X cols with
      | .error e => .error e
      | .ok (cols', X') => selectGo Y l₂ X' cols' := by
  intro l₁
  induction l₁ with
  | nil => intro l₂ X cols; rfl
  | cons i l₁ ih =>
    intro l₂ X cols
    simp only [List.cons_append, selectGo]
    rcases lookupA X i with _ | A
    · rfl
    · dsimp only
      rcases coverOne Y i (sortCands A) X with e | X1
      · rfl
      · dsimp only
        rcases lookupA X1 i with _ | A2
        · rfl
        · dsimp only
          exact ih l₂ (eraseA X1 i) (cols ++ [A2])

/-! ### `select` and `deselect` under the invariant -/

theorem selectGo_ok {N B : Nat} {S : List Cand} {Y : YMap}
    (hB : B * B = N)
    (hY : ∀ p : Cand, validCand N p → lookupA Y p = some (cons4 B p)) :
    ∀ (rest pr : List Constraint) (X : XMap) (cols : List (Finset Cand)),
    pwfX N B S pr X →
    (pr ++ rest).Nodup →
    (∀ k ∈ pr ++ rest, validCons N k ∧ ¬ covered B S k) →
    ∃ X', selectGo Y rest X cols = .ok (cols ++ snapList N B S pr rest, X') ∧
      pwfX N B S (pr ++ rest) X' := by
  intro rest
  induction rest with
  | nil =>
    intro pr X cols hwf _ _
    exact ⟨X, by simp [selectGo, snapList], by simpa using hwf⟩
  | cons i rest ih =>
    intro pr X cols hwf hnd hval
    have hi := hval i (by simp)
    have hipr : i ∉ pr := by
      rw [List.nodup_append] at hnd
      exact fun h => hnd.2.2 h (by simp)
    have hkey : i ∈ keysA X := (hwf.2.1 i).mpr ⟨hi.1, hi.2, hipr⟩
    have hlook : lookupA X i = some (okF N B S pr i) := pwfX_lookup_of_key hwf hkey
    have hmemA : ∀ j ∈ sortCands (okF N B S pr i),
        validCand N j ∧ (∀ s ∈ S, ¬ conflict B j s) ∧ prFree B pr j ∧ i ∈ cons4 B j := by
      intro j hj
      rw [mem_sortCands, mem_okF] at hj
      obtain ⟨hj1, hj2⟩ := hj
      rw [mem_okSet] at hj1
      exact ⟨hj1.1, hj1.2.2, hj2, hj1.2.1⟩
    have hpre : ∀ j ∈ sortCands (okF N B S pr i), ∀ k ∈ cons4 B j, k ≠ i →
        ∃ A, lookupA X k = some A ∧ j ∈ A := by
      intro j hj k hk hki
      obtain ⟨hjv, hjc, hjf, hji⟩ := hmemA j hj
      have hkkey : k ∈ keysA X := by
        refine (hwf.2.1 k).mpr ⟨validCons_of_mem_cons4 hB hjv hk, ?_, ?_⟩
        · rintro ⟨s, hs, hks⟩
          exact hjc s hs ⟨k, hk, hks⟩
        · exact fun hkpr => hjf k hkpr hk
      refine ⟨okF N B S pr k, pwfX_lookup_of_key hwf hkkey, ?_⟩
      rw [mem_okF, mem_okSet]
      exact ⟨⟨hjv, hk, hjc⟩, hjf⟩
    obtain ⟨X1, hcov, hkeys1, hval1⟩ := coverOne_spec (sortCands (okF N B S pr i)) X
      (nodup_sortCands _) (fun j hj => hY j (hmemA j hj).1) hpre
    have hlook1 : lookupA X1 i = some (okF N B S pr i) := by
      rw [hval1 i, hlook]
      simp
    have hnd1 : (keysA X1).Nodup := by
      rw [hkeys1]
      exact hwf.1
    have hwf2 : pwfX N B S (pr ++ [i]) (eraseA X1 i) := by
      refine ⟨nodup_keysA_eraseA _ hnd1, fun c => ?_, fun c A hA => ?_⟩
      · rw [mem_keysA_eraseA hnd1, hkeys1, hwf.2.1 c]
        constructor
        · rintro ⟨⟨hv, hcov', hcpr⟩, hci⟩
          refine ⟨hv, hcov', ?_⟩
          simp only [List.mem_append, List.mem_singleton]
          rintro (h | h)
          · exact hcpr h
          · exact hci h
        · rintro ⟨hv, hcov', hcpri⟩
          simp only [List.mem_append, List.mem_singleton] at hcpri
          push_neg at hcpri
          exact ⟨⟨hv, hcov', hcpri.1⟩, hcpri.2⟩
      · by_cases hci : c = i
        · subst hci
          rw [lookupA_eraseA_self hnd1] at hA
          exact absurd hA (by simp)
        · rw [lookupA_eraseA_ne hci, hval1 c] at hA
          rcases hX : lookupA X c with _ | A0
          · rw [hX] at hA
            simp at hA
          · rw [hX] at hA
            simp only [Option.map_some'] at hA
            have hA0 : A0 = okF N B S pr c := hwf.2.2 c A0 hX
            rw [if_neg hci] at hA
            subst hA0
            injection hA with hA2
            rw [← hA2]
            ext p
            constructor
            · intro hp
              rw [Finset.mem_sdiff] at hp
              obtain ⟨hp1, hp2⟩ := hp
              rw [mem_okF] at hp1
              rw [mem_okF, prFree_append]
              refine ⟨hp1.1, hp1.2, fun hi4 => hp2 ?_⟩
              rw [List.mem_toFinset, List.mem_filter]
              refine ⟨mem_sortCands.mpr (mem_okF.mpr ⟨?_, hp1.2⟩), by
                simp only [decide_eq_true_eq]
                exact (mem_okSet.mp hp1.1).2.1⟩
              rw [mem_okSet] at hp1 ⊢
              exact ⟨hp1.1.1, hi4, hp1.1.2.2⟩
            · intro hp
              rw [mem_okF, prFree_append] at hp
              obtain ⟨hp1, hpf, hpi⟩ := hp
              rw [Finset.mem_sdiff, mem_okF]
              refine ⟨⟨hp1, hpf⟩, fun hk => ?_⟩
              rw [List.mem_toFinset, List.mem_filter, mem_sortCands, mem_okF,
                mem_okSet] at hk
              exact hpi hk.1.1.2.1
    have hnd' : ((pr ++ [i]) ++ rest).Nodup := by
      rw [List.append_assoc, List.singleton_append]
      exact hnd
    have hval' : ∀ k ∈ (pr ++ [i]) ++ rest, validCons N k ∧ ¬ covered B S k := by
      intro k hk
      apply hval
      rw [List.append_assoc, List.singleton_append] at hk
      exact hk
    obtain ⟨X', hgo, hwf'⟩ := ih (pr ++ [i]) (eraseA X1 i)
      (cols ++ [okF N B S pr i]) hwf2 hnd' hval'
    refine ⟨X', ?_, ?_⟩
    · simp only [selectGo, hlook, hcov, hlook1]
      rw [hgo]
      simp [snapList, List.append_assoc]
    · rw [show (pr ++ [i]) ++ rest = pr ++ i :: rest from by
        rw [List.append_assoc, List.singleton_append]] at hwf'
      exact hwf'

theorem select_ok {N B : Nat} {S : List Cand} {Y : YMap} {X : XMap} {r : Cand}
    (hB : B * B = N)
    (hY : ∀ p : Cand, validCand N p → lookupA Y p = some (cons4 B p))
    (hwf : wfX N B S X) (hr : freeCand N B S r) :
    ∃ X', select X Y r = .ok (snapList N B S [] (cons4 B r), X', Y) ∧
      wfX N B (S ++ [r]) X' := by
  obtain ⟨X', hgo, hwf'⟩ := @selectGo_ok N B S Y hB hY (cons4 B r) [] X []
    (by simpa [wfX, pwfX] using hwf) (by simpa using cons4_nodup B r)
    (by
      intro k hk
      simp only [List.nil_append] at hk
      exact ⟨validCons_of_mem_cons4 hB hr.1 hk, not_covered_of_free hr hk⟩)
  refine ⟨X', ?_, ?_⟩
  · unfold select
    rw [hY r hr.1]
    dsimp only
    rw [hgo]
    rfl
  · exact pwfX_cons4_iff.mp (by simpa using hwf')

theorem select_err {N B : Nat} {S : List Cand} {Y : YMap} {X : XMap} {r : Cand}
    (hB : B * B = N)
    (hY : ∀ p : Cand, validCand N p → lookupA Y p = some (cons4 B p))
    (hwf : wfX N B S X) (hrv : validCand N r)
    (hconf : ∃ s ∈ S, conflict B r s) :
    ∃ X', select X Y r = .error (.key, X') := by
  obtain ⟨s, hs, k, hkr, hks⟩ := hconf
  have hcov : ∃ k ∈ cons4 B r, covered B S k := ⟨k, hkr, s, hs, hks⟩
  obtain ⟨l₁, k₀, l₂, hsplit, hcov₀, hfirst⟩ := exists_first_split hcov
  have hndc := cons4_nodup B r
  rw [hsplit] at hndc
  have hl₁ : ∀ x ∈ [] ++ l₁, validCons N x ∧ ¬ covered B S x := by
    intro x hx
    simp only [List.nil_append] at hx
    have hxr : x ∈ cons4 B r := by
      rw [hsplit]
      exact List.mem_append_left _ hx
    exact ⟨validCons_of_mem_cons4 hB hrv hxr, hfirst x hx⟩
  obtain ⟨X', hgo, hwf'⟩ := @selectGo_ok N B S Y hB hY l₁ [] X []
    (by simpa [wfX, pwfX] using hwf) (by simpa using hndc.of_append_left) hl₁
  have hk₀ : k₀ ∉ keysA X' := fun h => ((pwfX_key_iff hwf').mp h).2.1 hcov₀
  have hlooknone : lookupA X' k₀ = none := lookupA_eq_none.mpr hk₀
  refine ⟨X', ?_⟩
  unfold select
  rw [hY r hrv]
  dsimp only
  rw [hsplit, selectGo_append, hgo]
  dsimp only
  simp only [selectGo, hlooknone]

theorem deselectGo_ok {N B : Nat} {S : List Cand} {Y : YMap}
    (hB : B * B = N)
    (hY : ∀ p : Cand, validCand N p → lookupA Y p = some (cons4 B p)) :
    ∀ (pr : List Constraint) (X : XMap),
    pwfX N B S pr X → pr.Nodup →
    (∀ k ∈ pr, validCons N k ∧ ¬ covered B S k) →
    ∃ X', deselectGo Y pr.reverse (snapList N B S [] pr) X = .ok X' ∧ wfX N B S X' := by
  intro pr
  induction pr using List.reverseRecOn with
  | nil =>
    intro X hwf _ _
    exact ⟨X, by simp [deselectGo, snapList], hwf⟩
  | append_singleton pr i ih =>
    intro X hwf hnd hval
    rw [List.nodup_append] at hnd
    have hipr : i ∉ pr := fun h => hnd.2.2 h (by simp)
    have hi := hval i (by simp)
    have hsnap : snapList N B S [] (pr ++ [i]) =
        snapList N B S [] pr ++ [okF N B S pr i] := by
      rw [snapList_append]
      simp [snapList]
    have hjs : ∀ j ∈ sortCands (okF N B S pr i),
        validCand N j ∧ (∀ s ∈ S, ¬ conflict B j s) ∧ prFree B pr j ∧ i ∈ cons4 B j := by
      intro j hj
      rw [mem_sortCands, mem_okF] at hj
      obtain ⟨hj1, hj2⟩ := hj
      rw [mem_okSet] at hj1
      exact ⟨hj1.1, hj1.2.2, hj2, hj1.2.1⟩
    have hpre : ∀ j ∈ sortCands (okF N B S pr i), ∀ k ∈ cons4 B j, k ≠ i →
        k ∈ keysA (assignA X i (okF N B S pr i)) := by
      intro j hj k hk hki
      obtain ⟨hjv, hjc, hjf, hji⟩ := hjs j hj
      rw [mem_keysA_assignA]
      left
      refine (hwf.2.1 k).mpr ⟨validCons_of_mem_cons4 hB hjv hk, ?_, ?_⟩
      · rintro ⟨s, hs, hks⟩
        exact hjc s hs ⟨k, hk, hks⟩
      · simp only [List.mem_append, List.mem_singleton]
        rintro (h | h)
        · exact hjf k h hk
        · exact hki h
    obtain ⟨X2, hrest, hkeys2, hval2⟩ := restoreOne_spec (sortCands (okF N B S pr i))
      (assignA X i (okF N B S pr i)) (fun j hj => hY j (hjs j hj).1) hpre
    have hnd1 : (keysA (assignA X i (okF N B S pr i))).Nodup :=
      nodup_keysA_assignA _ hwf.1
    have hwf2 : pwfX N B S pr X2 := by
      refine ⟨by rw [hkeys2]; exact hnd1, fun c => ?_, fun c A hA => ?_⟩
      · rw [show keysA X2 = keysA (assignA X i (okF N B S pr i)) from hkeys2,
          mem_keysA_assignA]
        rw [hwf.2.1 c]
        constructor
        · rintro (⟨hv, hcov', hcpri⟩ | rfl)
          · refine ⟨hv, hcov', fun h => hcpri ?_⟩
            exact List.mem_append_left _ h
          · exact ⟨hi.1, hi.2, hipr⟩
        · rintro ⟨hv, hcov', hcpr⟩
          by_cases hci : c = i
          · exact Or.inr hci
          · refine Or.inl ⟨hv, hcov', ?_⟩
            simp only [List.mem_append, List.mem_singleton]
            rintro (h | h)
            · exact hcpr h
            · exact hci h
      · rw [hval2 c] at hA
        by_cases hci : c = i
        · subst hci
          rw [lookupA_assignA_self] at hA
          have hA' : some (okF N B S pr c) = some A := by
            simpa using hA
          exact (Option.some.inj hA').symm
        · rw [lookupA_assignA_ne _ hci] at hA
          rcases hX : lookupA X c with _ | A0
          · rw [hX] at hA
            simp at hA
          · rw [hX] at hA
            simp only [Option.map_some'] at hA
            have hA0 : A0 = okF N B S (pr ++ [i]) c := hwf.2.2 c A0 hX
            rw [if_neg hci] at hA
            subst hA0
            injection hA with hA2
            rw [← hA2]
            ext p
            constructor
            · intro hp
              rw [Finset.mem_union] at hp
              rcases hp with hp | hp
              · rw [mem_okF, prFree_append] at hp
                exact mem_okF.mpr ⟨hp.1, hp.2.1⟩
              · rw [List.mem_toFinset, List.mem_filter, mem_sortCands, mem_okF,
                  mem_okSet] at hp
                simp only [decide_eq_true_eq] at hp
                exact mem_okF.mpr ⟨mem_okSet.mpr ⟨hp.1.1.1, hp.2, hp.1.1.2.2⟩, hp.1.2⟩
            · intro hp
              rw [Finset.mem_union]
              rw [mem_okF] at hp
              by_cases hic4 : i ∈ cons4 B p
              · right
                rw [List.mem_toFinset, List.mem_filter, mem_sortCands, mem_okF]
                rw [mem_okSet] at hp ⊢
                simp only [decide_eq_true_eq]
                exact ⟨⟨⟨hp.1.1, hic4, hp.1.2.2⟩, hp.2⟩, hp.1.2.1⟩
              · left
                rw [mem_okF, prFree_append]
                exact ⟨hp.1, hp.2, hic4⟩
    obtain ⟨X', hgo, hwfX'⟩ := ih X2 hwf2 hnd.1
      (fun k hk => hval k (List.mem_append_left _ hk))
    refine ⟨X', ?_, hwfX'⟩
    rw [List.reverse_append, List.reverse_singleton, List.singleton_append, hsnap]
    simp only [deselectGo, List.getLast?_concat, List.dropLast_concat, hrest]
    exact hgo

theorem deselect_ok {N B : Nat} {S : List Cand} {Y : YMap} {X : XMap} {r : Cand}
    (hB : B * B = N)
    (hY : ∀ p : Cand, validCand N p → lookupA Y p = some (cons4 B p))
    (hwf : wfX N B (S ++ [r]) X) (hr : freeCand N B S r) :
    ∃ X', deselect X Y r (snapList N B S [] (cons4 B r)) = .ok (X', Y) ∧
      wfX N B S X' := by
  obtain ⟨X', hgo, hwf'⟩ := @deselectGo_ok N B S Y hB hY (cons4 B r) X
    (pwfX_cons4_iff.mpr hwf) (cons4_nodup B r)
    (fun k hk => ⟨validCons_of_mem_cons4 hB hr.1 hk, not_covered_of_free hr hk⟩)
  refine ⟨X', ?_, hwf'⟩
  unfold deselect
  rw [hY r hr.1]
  dsimp only
  rw [hgo]

/-! ### The index builder -/

theorem validCand_def {N r c n : Nat} :
    validCand N (r, c, n) ↔ r < N ∧ c < N ∧ 1 ≤ n ∧ n ≤ N := Iff.rfl

theorem mem_buildY {N B : Nat} {p : Cand} {ks : List Constraint} :
    (p, ks) ∈ buildY N B ↔ validCand N p ∧ ks = cons4 B p := by
  unfold buildY
  simp only [List.mem_flatMap, List.mem_map, List.mem_range]
  constructor
  · rintro ⟨row, hrow, col, hcol, k, hk, heq⟩
    have h1 : p = (row, col, k + 1) := by
      have h := congrArg Prod.fst heq
      simpa using h.symm
    have h2 : ks = cons4 B (row, col, k + 1) := by
      have h := congrArg Prod.snd heq
      simpa using h.symm
    subst h1
    refine ⟨validCand_def.mpr ⟨hrow, hcol, by omega, by omega⟩, by rw [h2]⟩
  · rintro ⟨hv, rfl⟩
    obtain ⟨r, c, n⟩ := p
    obtain ⟨h1, h2, h3, h4⟩ := validCand_def.mp hv
    refine ⟨r, h1, c, h2, n - 1, by omega, ?_⟩
    have hn : n - 1 + 1 = n := by omega
    rw [hn]

theorem keysA_buildY (N B : Nat) : keysA (buildY N B) =
    (List.range N).flatMap fun row =>
      (List.range N).flatMap fun col =>
        (List.range N).map fun k => ((row, col, k + 1) : Cand) := by
  unfold buildY keysA
  simp only [List.map_flatMap, List.map_map]
  rfl

theorem nodup_keysA_buildY (N B : Nat) : (keysA (buildY N B)).Nodup := by
  rw [keysA_buildY]
  rw [List.nodup_flatMap]
  constructor
  · intro row _
    rw [List.nodup_flatMap]
    constructor
    · intro col _
      refine List.Nodup.map ?_ (List.nodup_range _)
      intro a b h
      have h2 := congrArg (fun q : Cand => q.2.2) h
      simpa using h2
    · refine (List.pairwise_lt_range _).imp ?_
      intro a b hab x hxa hxb
      simp only [List.mem_map, List.mem_range] at hxa hxb
      obtain ⟨k, _, rfl⟩ := hxa
      obtain ⟨k2, _, hx⟩ := hxb
      have hba : b = a := by
        have h2 := congrArg (fun q : Cand => q.2.1) hx
        simpa using h2
      omega
  · refine (List.pairwise_lt_range _).imp ?_
    intro a b hab x hxa hxb
    simp only [List.mem_flatMap, List.mem_map, List.mem_range] at hxa hxb
    obtain ⟨col, _, k, _, rfl⟩ := hxa
    obtain ⟨col2, _, k2, _, hx⟩ := hxb
    have hba : b = a := by
      have h2 := congrArg (fun q : Cand => q.1) hx
      simpa using h2
    omega

theorem lookupA_buildY {N B : Nat} (p : Cand) :
    lookupA (buildY N B) p =
      if validCand N p then some (cons4 B p) else none := by
  by_cases hv : validCand N p
  · rw [if_pos hv]
    exact lookupA_of_mem (nodup_keysA_buildY N B) (mem_buildY.mpr ⟨hv, rfl⟩)
  · rw [if_neg hv]
    refine lookupA_eq_none.mpr fun h => hv ?_
    obtain ⟨ks, hks⟩ := mem_keysA.mp h
    exact (mem_buildY.mp hks).1

theorem mem_initX {N : Nat} {c : Constraint} {A : Finset Cand} :
    (c, A) ∈ initX N ↔ A = ∅ ∧ validCons N c := by
  unfold initX
  simp only [List.mem_flatMap, List.mem_range, List.mem_cons, List.not_mem_nil,
    or_false, Prod.mk.injEq]
  constructor
  · rintro ⟨i, hi, j, hj, h⟩
    rcases h with ⟨h1, h2⟩ | ⟨h1, h2⟩ | ⟨h1, h2⟩ | ⟨h1, h2⟩ <;> subst h1 <;> subst h2 <;>
      exact ⟨rfl, by simp only [validCons]; omega⟩
  · rintro ⟨rfl, hv⟩
    cases c with
    | rowcol i j => exact ⟨i, hv.1, j, hv.2, Or.inl ⟨rfl, rfl⟩⟩
    | rownum i n =>
      obtain ⟨h1, h2, h3⟩ := hv
      have hn : n - 1 + 1 = n := by omega
      exact ⟨i, h1, n - 1, by omega, Or.inr (Or.inl ⟨by rw [hn], rfl⟩)⟩
    | colnum j n =>
      obtain ⟨h1, h2, h3⟩ := hv
      have hn : n - 1 + 1 = n := by omega
      exact ⟨j, h1, n - 1, by omega, Or.inr (Or.inr (Or.inl ⟨by rw [hn], rfl⟩))⟩
    | blcnum b n =>
      obtain ⟨h1, h2, h3⟩ := hv
      have hn : n - 1 + 1 = n := by omega
      exact ⟨b, h1, n - 1, by omega, Or.inr (Or.inr (Or.inr ⟨by rw [hn], rfl⟩))⟩

theorem keysA_initX_groups (N : Nat) : keysA (initX N) =
    (List.range N).flatMap fun i =>
      (List.range N).flatMap fun j =>
        [Constraint.rowcol i j, .rownum i (j+1), .colnum i (j+1), .blcnum i (j+1)] := by
  unfold initX keysA
  rw [List.map_flatMap]
  refine List.flatMap_congr ?_
  intro i _
  rw [List.map_flatMap]
  refine List.flatMap_congr ?_
  intro j _
  rfl

theorem nodup_keysA_initX (N : Nat) : (keysA (initX N)).Nodup := by
  rw [keysA_initX_groups]
  rw [List.nodup_flatMap]
  constructor
  · intro i _
    rw [List.nodup_flatMap]
    constructor
    · intro j _
      simp [conTag]
    · refine (List.pairwise_lt_range _).imp ?_
      intro a b hab x hxa hxb
      simp only [List.mem_cons, List.not_mem_nil, or_false] at hxa hxb
      have hca : (conTag x = 0 ∧ conSnd x = a) ∨ (conTag x ≠ 0 ∧ conSnd x = a + 1) := by
        rcases hxa with rfl | rfl | rfl | rfl <;> simp [conTag, conSnd]
      have hcb : (conTag x = 0 ∧ conSnd x = b) ∨ (conTag x ≠ 0 ∧ conSnd x = b + 1) := by
        rcases hxb with rfl | rfl | rfl | rfl <;> simp [conTag, conSnd]
      rcases hca with ⟨h1, h2⟩ | ⟨h1, h2⟩ <;> rcases hcb with ⟨h3, h4⟩ | ⟨h3, h4⟩ <;> omega
  · refine (List.pairwise_lt_range _).imp ?_
    intro a b hab x hxa hxb
    simp only [List.mem_flatMap, List.mem_range, List.mem_cons, List.mem_singleton,
      List.not_mem_nil, or_false] at hxa hxb
    obtain ⟨j, _, hja⟩ := hxa
    obtain ⟨j', _, hjb⟩ := hxb
    have ha : conFst x = a := by
      rcases hja with h | h | h | h <;> subst h <;> simp [conFst]
    have hb : conFst x = b := by
      rcases hjb with h | h | h | h <;> subst h <;> simp [conFst]
    omega

theorem lookupA_initX {N : Nat} (c : Constraint) :
    lookupA (initX N) c = if validCons N c then some (∅ : Finset Cand) else none := by
  by_cases hv : validCons N c
  · rw [if_pos hv]
    exact lookupA_of_mem (nodup_keysA_initX N) (mem_initX.mpr ⟨rfl, hv⟩)
  · rw [if_neg hv]
    refine lookupA_eq_none.mpr fun h => hv ?_
    obtain ⟨A, hA⟩ := mem_keysA.mp h
    exact (mem_initX.mp hA).2

theorem lookupA_addCand (X : XMap) (k : Constraint) (p : Cand) (c : Constraint) :
    lookupA (addCand X k p) c =
      if c = k then (lookupA X c).map (insert p) else lookupA X c := by
  unfold addCand
  rcases hk : lookupA X k with _ | A
  · by_cases hck : c = k
    · subst hck
      rw [if_pos rfl, hk]
      rfl
    · rw [if_neg hck]
  · by_cases hck : c = k
    · subst hck
      rw [if_pos rfl, lookupA_setA_self _ (lookupA_isSome.mp (by rw [hk]; rfl)), hk]
      rfl
    · rw [if_neg hck]
      exact lookupA_setA_ne _ hck

theorem keysA_addCand (X : XMap) (k : Constraint) (p : Cand) :
    keysA (addCand X k p) = keysA X := by
  unfold addCand
  rcases lookupA X k with _ | A
  · rfl
  · exact keysA_setA X k _

theorem length_addCand (X : XMap) (k : Constraint) (p : Cand) :
    (addCand X k p).length = X.length := by
  unfold addCand
  rcases lookupA X k with _ | A
  · rfl
  · exact length_setA X k _

theorem lookupA_foldl_addCand (p : Cand) :
    ∀ (ks : List Constraint) (X : XMap) (c : Constraint),
    lookupA (ks.foldl (fun X k => addCand X k p) X) c =
      if c ∈ ks then (lookupA X c).map (insert p) else lookupA X c := by
  intro ks
  induction ks with
  | nil =>
    intro X c
    simp
  | cons k ks ih =>
    intro X c
    rw [List.foldl_cons, ih, lookupA_addCand]
    by_cases hck : c = k
    · subst hck
      rw [if_pos rfl, if_pos (List.mem_cons_self _ _)]
      by_cases hc : c ∈ ks
      · rw [if_pos hc]
        rcases lookupA X c with _ | A
        · rfl
        · simp [Finset.insert_idem]
      · rw [if_neg hc]
    · rw [if_neg hck]
      by_cases hc : c ∈ ks
      · rw [if_pos hc, if_pos (List.mem_cons_of_mem _ hc)]
      · rw [if_neg hc, if_neg (fun h => by
          rcases List.mem_cons.mp h with h2 | h2
          · exact hck h2
          · exact hc h2)]

theorem keysA_foldl_addCand (p : Cand) :
    ∀ (ks : List Constraint) (X : XMap),
    keysA (ks.foldl (fun X k => addCand X k p) X) = keysA X := by
  intro ks
  induction ks with
  | nil => intro X; rfl
  | cons k ks ih =>
    intro X
    rw [List.foldl_cons, ih, keysA_addCand]

theorem length_foldl_addCand (p : Cand) :
    ∀ (ks : List Constraint) (X : XMap),
    (ks.foldl (fun X k => addCand X k p) X).length = X.length := by
  intro ks
  induction ks with
  | nil => intro X; rfl
  | cons k ks ih =>
    intro X
    rw [List.foldl_cons, ih, length_addCand]

theorem lookupA_populate :
    ∀ (items : YMap) (X : XMap) (c : Constraint),
    lookupA (populate X items) c = (lookupA X c).map (fun A =>
      A ∪ ((items.filter (fun pr => decide (c ∈ pr.2))).map Prod.fst).toFinset) := by
  intro items
  induction items with
  | nil =>
    intro X c
    show lookupA X c = _
    rcases h : lookupA X c with _ | A <;> simp [h]
  | cons pr items ih =>
    intro X c
    have hstep : populate X (pr :: items) =
        populate (pr.2.foldl (fun X k => addCand X k pr.1) X) items := by
      unfold populate
      rw [List.foldl_cons]
    rw [hstep, ih, lookupA_foldl_addCand]
    by_cases hc : c ∈ pr.2
    · rw [if_pos hc]
      rcases lookupA X c with _ | A
      · rfl
      · simp only [Option.map_some']
        congr 1
        rw [List.filter_cons, if_pos (by simpa using hc)]
        ext q
        simp only [Finset.mem_union, Finset.mem_insert, List.map_cons, List.toFinset_cons]
        tauto
    · rw [if_neg hc]
      rcases lookupA X c with _ | A
      · rfl
      · simp only [Option.map_some']
        congr 2
        rw [List.filter_cons, if_neg (by simpa using hc)]

theorem keysA_populate (items : YMap) (X : XMap) :
    keysA (populate X items) = keysA X := by
  induction items generalizing X with
  | nil => rfl
  | cons pr items ih =>
    have hstep : populate X (pr :: items) =
        populate (pr.2.foldl (fun X k => addCand X k pr.1) X) items := by
      unfold populate
      rw [List.foldl_cons]
    rw [hstep, ih, keysA_foldl_addCand]

theorem length_populate (items : YMap) (X : XMap) :
    (populate X items).length = X.length := by
  induction items generalizing X with
  | nil => rfl
  | cons pr items ih =>
    have hstep : populate X (pr :: items) =
        populate (pr.2.foldl (fun X k => addCand X k pr.1) X) items := by
      unfold populate
      rw [List.foldl_cons]
    rw [hstep, ih, length_foldl_addCand]

theorem lookupA_builtX {N B : Nat} (c : Constraint) :
    lookupA (builtX N B) c =
      if validCons N c then some (okSet N B [] c) else none := by
  unfold builtX
  rw [lookupA_populate, lookupA_initX]
  by_cases hv : validCons N c
  · rw [if_pos hv, if_pos hv]
    simp only [Option.map_some']
    congr 1
    rw [Finset.empty_union]
    ext p
    simp only [List.mem_toFinset, List.mem_map, List.mem_filter, decide_eq_true_eq]
    constructor
    · rintro ⟨⟨q, ks⟩, ⟨hmem, hcin⟩, rfl⟩
      obtain ⟨hqv, rfl⟩ := mem_buildY.mp hmem
      exact mem_okSet.mpr ⟨hqv, hcin, by simp⟩
    · intro hp
      obtain ⟨hpv, hcin, _⟩ := mem_okSet.mp hp
      exact ⟨(p, cons4 B p), ⟨mem_buildY.mpr ⟨hpv, rfl⟩, hcin⟩, rfl⟩
  · rw [if_neg hv, if_neg hv]
    rfl

theorem wfX_builtX {N B : Nat} : wfX N B [] (builtX N B) := by
  refine ⟨?_, fun c => ?_, fun c A hA => ?_⟩
  · rw [show keysA (builtX N B) = keysA (initX N) from keysA_populate _ _]
    exact nodup_keysA_initX N
  · rw [← lookupA_isSome, lookupA_builtX]
    by_cases hv : validCons N c <;> simp [hv, covered]
  · rw [lookupA_builtX] at hA
    by_cases hv : validCons N c
    · rw [if_pos hv] at hA
      rw [okF_nil]
      exact (Option.some.inj hA).symm
    · rw [if_neg hv] at hA
      exact absurd hA (by simp)

theorem length_buildY (N B : Nat) : (buildY N B).length = N ^ 3 := by
  have h1 : ∀ (l : List Nat) (f : Nat → Nat) (m : Nat), (∀ x ∈ l, f x = m) →
      (l.map f).sum = l.length * m := by
    intro l f m hf
    induction l with
    | nil => simp
    | cons a l ih =>
      simp only [List.map_cons, List.sum_cons, List.length_cons]
      rw [hf a (List.mem_cons_self _ _), ih (fun x hx => hf x (List.mem_cons_of_mem _ hx))]
      ring
  unfold buildY
  rw [List.length_flatMap]
  rw [h1 _ _ (N * N) ?hinner]
  · simp only [List.length_range]
    ring
  case hinner =>
    intro row _
    simp only [Function.comp_apply]
    rw [List.length_flatMap]
    rw [h1 _ _ N ?hinner2]
    · simp only [List.length_range]
    case hinner2 =>
      intro col _
      simp only [Function.comp_apply, List.length_map, List.length_range]

theorem length_initX (N : Nat) : (initX N).length = 4 * N ^ 2 := by
  have h1 : ∀ (l : List Nat) (f : Nat → Nat) (m : Nat), (∀ x ∈ l, f x = m) →
      (l.map f).sum = l.length * m := by
    intro l f m hf
    induction l with
    | nil => simp
    | cons a l ih =>
      simp only [List.map_cons, List.sum_cons, List.length_cons]
      rw [hf a (List.mem_cons_self _ _), ih (fun x hx => hf x (List.mem_cons_of_mem _ hx))]
      ring
  unfold initX
  rw [List.length_flatMap]
  rw [h1 _ _ (N * 4) ?hinner]
  · simp only [List.length_range]
    ring
  case hinner =>
    intro i _
    simp only [Function.comp_apply]
    rw [List.length_flatMap]
    rw [h1 _ _ 4 ?hinner2]
    · simp only [List.length_range]
    case hinner2 =>
      intro j _
      simp only [Function.comp_apply, List.length_cons, List.length_nil]

theorem length_builtX (N B : Nat) : (builtX N B).length = 4 * N ^ 2 := by
  unfold builtX
  rw [length_populate, length_initX]

theorem card_okSet_nil {N B : Nat} (hB : B * B = N) {c : Constraint}
    (hc : validCons N c) : (okSet N B [] c).card = N := by
  cases c with
  | rowcol i j =>
    obtain ⟨hi, hj⟩ := hc
    have hmem : ∀ r c' m, ((r, c', m) : Cand) ∈ okSet N B [] (.rowcol i j) ↔
        (r = i ∧ c' = j ∧ 1 ≤ m ∧ m ≤ N) := by
      intro r c' m
      rw [mem_okSet]
      simp only [validCand_def, cons4, List.mem_cons, List.not_mem_nil, or_false]
      constructor
      · rintro ⟨⟨h1, h2, h3, h4⟩, hk, -⟩
        rcases hk with hk | hk | hk | hk
        · injection hk with e1 e2
          exact ⟨e1.symm, e2.symm, h3, h4⟩
        · exact absurd hk (by simp)
        · exact absurd hk (by simp)
        · exact absurd hk (by simp)
      · rintro ⟨rfl, rfl, h3, h4⟩
        exact ⟨⟨hi, hj, h3, h4⟩, Or.inl rfl, by simp⟩
    have hset : okSet N B [] (Constraint.rowcol i j) =
        (Finset.Icc 1 N).image (fun n => ((i, j, n) : Cand)) := by
      ext p
      obtain ⟨r, c', m⟩ := p
      rw [hmem r c' m]
      simp only [Finset.mem_image, Finset.mem_Icc, Prod.mk.injEq]
      constructor
      · rintro ⟨rfl, rfl, h3, h4⟩
        exact ⟨m, ⟨h3, h4⟩, rfl, rfl, rfl⟩
      · rintro ⟨m', ⟨hm1, hm2⟩, h1, h2, h3⟩
        exact ⟨h1.symm, h2.symm, by omega, by omega⟩
    rw [hset, Finset.card_image_of_injective _ (fun a b h => by
      have h2 := congrArg (fun q : Cand => q.2.2) h
      simpa using h2), Nat.card_Icc]
    omega
  | rownum i n =>
    obtain ⟨hi, hn1, hn2⟩ := hc
    have hmem : ∀ r c' m, ((r, c', m) : Cand) ∈ okSet N B [] (.rownum i n) ↔
        (r = i ∧ m = n ∧ c' < N) := by
      intro r c' m
      rw [mem_okSet]
      simp only [validCand_def, cons4, List.mem_cons, List.not_mem_nil, or_false]
      constructor
      · rintro ⟨⟨h1, h2, h3, h4⟩, hk, -⟩
        rcases hk with hk | hk | hk | hk
        · exact absurd hk (by simp)
        · injection hk with e1 e2
          exact ⟨e1.symm, e2.symm, h2⟩
        · exact absurd hk (by simp)
        · exact absurd hk (by simp)
      · rintro ⟨rfl, rfl, h2⟩
        exact ⟨⟨hi, h2, hn1, hn2⟩, Or.inr (Or.inl rfl), by simp⟩
    have hset : okSet N B [] (Constraint.rownum i n) =
        (Finset.range N).image (fun c' => ((i, c', n) : Cand)) := by
      ext p
      obtain ⟨r, c', m⟩ := p
      rw [hmem r c' m]
      simp only [Finset.mem_image, Finset.mem_range, Prod.mk.injEq]
      constructor
      · rintro ⟨rfl, rfl, h2⟩
        exact ⟨c', h2, rfl, rfl, rfl⟩
      · rintro ⟨c2, hc2, h1, h2, h3⟩
        exact ⟨h1.symm, h3.symm, by omega⟩
    rw [hset, Finset.card_image_of_injective _ (fun a b h => by
      have h2 := congrArg (fun q : Cand => q.2.1) h
      simpa using h2), Finset.card_range]
  | colnum j n =>
    obtain ⟨hj, hn1, hn2⟩ := hc
    have hmem : ∀ r c' m, ((r, c', m) : Cand) ∈ okSet N B [] (.colnum j n) ↔
        (c' = j ∧ m = n ∧ r < N) := by
      intro r c' m
      rw [mem_okSet]
      simp only [validCand_def, cons4, List.mem_cons, List.not_mem_nil, or_false]
      constructor
      · rintro ⟨⟨h1, h2, h3, h4⟩, hk, -⟩
        rcases hk with hk | hk | hk | hk
        · exact absurd hk (by simp)
        · exact absurd hk (by simp)
        · injection hk with e1 e2
          exact ⟨e1.symm, e2.symm, h1⟩
        · exact absurd hk (by simp)
      · rintro ⟨rfl, rfl, h2⟩
        exact ⟨⟨h2, hj, hn1, hn2⟩, Or.inr (Or.inr (Or.inl rfl)), by simp⟩
    have hset : okSet N B [] (Constraint.colnum j n) =
        (Finset.range N).image (fun r => ((r, j, n) : Cand)) := by
      ext p
      obtain ⟨r, c', m⟩ := p
      rw [hmem r c' m]
      simp only [Finset.mem_image, Finset.mem_range, Prod.mk.injEq]
      constructor
      · rintro ⟨rfl, rfl, h2⟩
        exact ⟨r, h2, rfl, rfl, rfl⟩
      · rintro ⟨r2, hr2, h1, h2, h3⟩
        exact ⟨h2.symm, h3.symm, by omega⟩
    rw [hset, Finset.card_image_of_injective _ (fun a b h => by
      have h2 := congrArg (fun q : Cand => q.1) h
      simpa using h2), Finset.card_range]
  | blcnum b n =>
    obtain ⟨hb, hn1, hn2⟩ := hc
    have hN : 1 ≤ N := by omega
    have hBpos : 0 < B := by
      rcases Nat.eq_zero_or_pos B with h | h
      · subst h
        omega
      · exact h
    have hbB : b / B < B := Nat.div_lt_iff_lt_mul hBpos |>.mpr (by omega)
    have hbmod : b % B < B := Nat.mod_lt _ hBpos
    have hmem : ∀ r c' m, ((r, c', m) : Cand) ∈ okSet N B [] (.blcnum b n) ↔
        (r < N ∧ c' < N ∧ m = n ∧ B * (r / B) + c' / B = b) := by
      intro r c' m
      rw [mem_okSet]
      simp only [validCand_def, cons4, List.mem_cons, List.not_mem_nil, or_false]
      constructor
      · rintro ⟨⟨h1, h2, h3, h4⟩, hk, -⟩
        rcases hk with hk | hk | hk | hk
        · exact absurd hk (by simp)
        · exact absurd hk (by simp)
        · exact absurd hk (by simp)
        · injection hk with e1 e2
          exact ⟨h1, h2, e2.symm, e1.symm⟩
      · rintro ⟨h1, h2, rfl, hblk⟩
        exact ⟨⟨h1, h2, hn1, hn2⟩, Or.inr (Or.inr (Or.inr (by rw [hblk]))), by simp⟩
    have hset : okSet N B [] (Constraint.blcnum b n) =
        ((Finset.range B) ×ˢ (Finset.range B)).image
          (fun st => ((B * (b / B) + st.1, B * (b % B) + st.2, n) : Cand)) := by
      ext p
      obtain ⟨r, c', m⟩ := p
      rw [hmem r c' m]
      simp only [Finset.mem_image, Finset.mem_product, Finset.mem_range, Prod.mk.injEq]
      constructor
      · rintro ⟨h1, h2, rfl, hblk⟩
        have hcB : c' / B < B := Nat.div_lt_iff_lt_mul hBpos |>.mpr (by omega)
        have hdiv : b / B = r / B := by
          rw [← hblk, Nat.mul_add_div hBpos, Nat.div_eq_of_lt hcB]
          omega
        have hmod : b % B = c' / B := by
          rw [← hblk, Nat.mul_add_mod]
          exact Nat.mod_eq_of_lt hcB
        refine ⟨(r % B, c' % B), ⟨Nat.mod_lt _ hBpos, Nat.mod_lt _ hBpos⟩, ?_, ?_, rfl⟩
        · rw [hdiv]
          exact Nat.div_add_mod r B
        · rw [hmod]
          exact Nat.div_add_mod c' B
      · rintro ⟨⟨s, t⟩, ⟨hs, ht⟩, h1, h2, h3⟩
        have hlt1 : B * (b / B) + s < N := by
          have h5 : B * (b / B) + s < B * (b / B + 1) := by
            rw [Nat.mul_succ]
            omega
          have h6 : B * (b / B + 1) ≤ B * B := Nat.mul_le_mul_left B hbB
          omega
        have hlt2 : B * (b % B) + t < N := by
          have h5 : B * (b % B) + t < B * (b % B + 1) := by
            rw [Nat.mul_succ]
            omega
          have h6 : B * (b % B + 1) ≤ B * B := Nat.mul_le_mul_left B hbmod
          omega
        subst h1
        subst h2
        refine ⟨hlt1, hlt2, h3.symm, ?_⟩
        rw [Nat.mul_add_div hBpos, Nat.div_eq_of_lt hs, Nat.mul_add_div hBpos,
          Nat.div_eq_of_lt ht, Nat.add_zero, Nat.add_zero]
        exact Nat.div_add_mod b B
    have hinj : Function.Injective
        (fun st : Nat × Nat => ((B * (b / B) + st.1, B * (b % B) + st.2, n) : Cand)) := by
      rintro ⟨s, t⟩ ⟨s2, t2⟩ h
      have e1 := congrArg (fun q : Cand => q.1) h
      have e2 := congrArg (fun q : Cand => q.2.1) h
      simp only at e1 e2
      have : s = s2 := by omega
      have : t = t2 := by omega
      simp_all
    rw [hset, Finset.card_image_of_injective _ hinj, Finset.card_product,
      Finset.card_range]
    rw [hB]

/-! ### Boards, clues and the seeding loop -/

theorem mem_cells {N : Nat} {rc : Nat × Nat} : rc ∈ cells N ↔ rc.1 < N ∧ rc.2 < N := by
  obtain ⟨r, c⟩ := rc
  unfold cells
  simp [List.mem_flatMap]

theorem nodup_cells (N : Nat) : (cells N).Nodup := by
  unfold cells
  rw [List.nodup_flatMap]
  constructor
  · intro r _
    refine List.Nodup.map ?_ (List.nodup_range _)
    intro a b h
    simpa using congrArg Prod.snd h
  · refine (List.pairwise_lt_range _).imp ?_
    intro a b hab x hxa hxb
    simp only [List.mem_map, List.mem_range] at hxa hxb
    obtain ⟨c, _, rfl⟩ := hxa
    obtain ⟨c2, _, hx⟩ := hxb
    have hba : b = a := by simpa using congrArg Prod.fst hx
    omega

theorem cluesOf_cons (board : Grid) (rc : Nat × Nat) (rcs : List (Nat × Nat)) :
    cluesOf board (rc :: rcs) =
      if gridVal board rc.1 rc.2 = 0 then cluesOf board rcs
      else (rc.1, rc.2, gridVal board rc.1 rc.2) :: cluesOf board rcs := by
  unfold cluesOf
  rw [List.filterMap_cons]
  by_cases h : gridVal board rc.1 rc.2 = 0 <;> simp [h]

theorem checkBoard_iff {board : Grid} :
    checkBoard board = true ↔
      isqrt board.length * isqrt board.length = board.length ∧
      (∀ row ∈ board, row.length = board.length) ∧
      (∀ row ∈ board, ∀ x ∈ row, x ≤ board.length) := by
  unfold checkBoard
  simp [List.all_eq_true, and_assoc]

theorem getD_le_of_all {l : List Nat} {N : Nat} (h : ∀ x ∈ l, x ≤ N) (c : Nat) :
    l.getD c 0 ≤ N := by
  by_cases hc : c < l.length
  · rw [List.getD_eq_getElem _ _ hc]
    exact h _ (List.getElem_mem _)
  · rw [List.getD_eq_default _ _ (by omega)]
    omega

theorem gridVal_le {board : Grid} (hcb : checkBoard board = true) (r c : Nat) :
    gridVal board r c ≤ board.length := by
  obtain ⟨-, hrows, hent⟩ := checkBoard_iff.mp hcb
  unfold gridVal
  by_cases hr : r < board.length
  · rw [List.getD_eq_getElem _ _ hr]
    exact getD_le_of_all (hent _ (List.getElem_mem _)) c
  · rw [show board.getD r [] = [] from List.getD_eq_default _ _ (by omega)]
    simp

theorem clue_valid {board : Grid} (hcb : checkBoard board = true) :
    ∀ p ∈ clues board, validCand board.length p ∧
      gridVal board p.1 p.2.1 = p.2.2 ∧ p.2.2 ≠ 0 := by
  intro p hp
  unfold clues cluesOf at hp
  rw [List.mem_filterMap] at hp
  obtain ⟨rc, hrc, hsome⟩ := hp
  rw [mem_cells] at hrc
  by_cases h0 : gridVal board rc.1 rc.2 = 0
  · simp [h0] at hsome
  · simp only [h0, if_neg, ite_false] at hsome
    obtain rfl := Option.some.inj hsome
    have hle := gridVal_le hcb rc.1 rc.2
    exact ⟨validCand_def.mpr ⟨hrc.1, hrc.2, by omega, hle⟩, rfl, h0⟩

theorem nodup_clues (board : Grid) : (clues board).Nodup := by
  unfold clues cluesOf
  refine List.Nodup.filterMap ?_ (nodup_cells _)
  intro a b p hpa hpb
  by_cases ha : gridVal board a.1 a.2 = 0
  · simp [ha] at hpa
  · by_cases hb : gridVal board b.1 b.2 = 0
    · simp [hb] at hpb
    · simp only [ha, hb, ite_false, Option.mem_def, Option.some.injEq] at hpa hpb
      have h1 := congrArg (fun q : Cand => (q.1, q.2.1)) hpa
      have h2 := congrArg (fun q : Cand => (q.1, q.2.1)) hpb
      simp only at h1 h2
      rw [← h1] at h2
      exact Prod.ext (congrArg Prod.fst h2.symm) (congrArg Prod.snd h2.symm)

theorem freeCand_of_goodS_middle {N B : Nat} {S : List Cand} {r : Cand}
    {rest : List Cand} (h : goodS N B (S ++ r :: rest)) (hv : validCand N r) :
    freeCand N B S r := by
  refine ⟨hv, fun s hs => ?_⟩
  have h2 := h.2
  rw [List.pairwise_append] at h2
  have h3 := h2.2.2 s hs r (List.mem_cons_self _ _)
  exact fun hc => h3 (conflict_comm.mp hc)

theorem goodS_middle_assoc {N B : Nat} {S : List Cand} {r : Cand} {rest : List Cand} :
    goodS N B (S ++ r :: rest) ↔ goodS N B ((S ++ [r]) ++ rest) := by
  rw [show (S ++ [r]) ++ rest = S ++ r :: rest from by
    rw [List.append_assoc, List.singleton_append]]

theorem seedGo_consistent {N B : Nat} {Y : YMap} {board : Grid}
    (hB : B * B = N)
    (hY : ∀ p : Cand, validCand N p → lookupA Y p = some (cons4 B p)) :
    ∀ (rcs : List (Nat × Nat)) (S : List Cand) (X : XMap),
    wfX N B S X →
    goodS N B (S ++ cluesOf board rcs) →
    (∀ rc ∈ rcs, gridVal board rc.1 rc.2 ≠ 0 →
      validCand N (rc.1, rc.2, gridVal board rc.1 rc.2)) →
    ∃ X', seedGo Y board rcs X = .ok X' ∧ wfX N B (S ++ cluesOf board rcs) X' := by
  intro rcs
  induction rcs with
  | nil =>
    intro S X hwf hgood _
    refine ⟨X, rfl, ?_⟩
    simpa [cluesOf] using hwf
  | cons rc rcs ih =>
    intro S X hwf hgood hvalid
    by_cases h0 : gridVal board rc.1 rc.2 = 0
    · rw [cluesOf_cons, if_pos h0] at hgood ⊢
      obtain ⟨X', h1, h2⟩ := ih S X hwf hgood
        (fun rc2 h => hvalid rc2 (List.mem_cons_of_mem _ h))
      refine ⟨X', ?_, h2⟩
      simp only [seedGo, h0, if_pos]
      exact h1
    · rw [cluesOf_cons, if_neg h0] at hgood ⊢
      have hv : validCand N (rc.1, rc.2, gridVal board rc.1 rc.2) :=
        hvalid rc (List.mem_cons_self _ _) h0
      have hfree : freeCand N B S (rc.1, rc.2, gridVal board rc.1 rc.2) :=
        freeCand_of_goodS_middle hgood hv
      obtain ⟨X1, hsel, hwf1⟩ := select_ok hB hY hwf hfree
      obtain ⟨X', h1, h2⟩ := ih (S ++ [(rc.1, rc.2, gridVal board rc.1 rc.2)]) X1 hwf1
        (goodS_middle_assoc.mp hgood)
        (fun rc2 h => hvalid rc2 (List.mem_cons_of_mem _ h))
      refine ⟨X', ?_, ?_⟩
      · simp only [seedGo, if_neg h0, hsel]
        exact h1
      · rw [show S ++ (rc.1, rc.2, gridVal board rc.1 rc.2) :: cluesOf board rcs =
          (S ++ [(rc.1, rc.2, gridVal board rc.1 rc.2)]) ++ cluesOf board rcs from by
          rw [List.append_assoc, List.singleton_append]]
        exact h2

theorem seedGo_conflict {N B : Nat} {Y : YMap} {board : Grid}
    (hB : B * B = N)
    (hY : ∀ p : Cand, validCand N p → lookupA Y p = some (cons4 B p)) :
    ∀ (rcs : List (Nat × Nat)) (S : List Cand) (X : XMap),
    wfX N B S X → goodS N B S →
    (∀ rc ∈ rcs, gridVal board rc.1 rc.2 ≠ 0 →
      validCand N (rc.1, rc.2, gridVal board rc.1 rc.2)) →
    ¬ goodS N B (S ++ cluesOf board rcs) →
    ∃ X', seedGo Y board rcs X = .error (.key, X') := by
  intro rcs
  induction rcs with
  | nil =>
    intro S X _ hgood _ hbad
    exact absurd (by simpa [cluesOf] using hgood) hbad
  | cons rc rcs ih =>
    intro S X hwf hgood hvalid hbad
    by_cases h0 : gridVal board rc.1 rc.2 = 0
    · rw [cluesOf_cons, if_pos h0] at hbad
      obtain ⟨X', h1⟩ := ih S X hwf hgood
        (fun rc2 h => hvalid rc2 (List.mem_cons_of_mem _ h)) hbad
      refine ⟨X', ?_⟩
      simp only [seedGo, h0, if_pos]
      exact h1
    · rw [cluesOf_cons, if_neg h0] at hbad
      have hv : validCand N (rc.1, rc.2, gridVal board rc.1 rc.2) :=
        hvalid rc (List.mem_cons_self _ _) h0
      by_cases hcomp : ∀ s ∈ S, ¬ conflict B (rc.1, rc.2, gridVal board rc.1 rc.2) s
      · have hfree : freeCand N B S (rc.1, rc.2, gridVal board rc.1 rc.2) := ⟨hv, hcomp⟩
        obtain ⟨X1, hsel, hwf1⟩ := select_ok hB hY hwf hfree
        obtain ⟨X', h1⟩ := ih (S ++ [(rc.1, rc.2, gridVal board rc.1 rc.2)]) X1 hwf1
          (goodS_append hgood hfree)
          (fun rc2 h => hvalid rc2 (List.mem_cons_of_mem _ h))
          (fun h => hbad (goodS_middle_assoc.mpr h))
        refine ⟨X', ?_⟩
        simp only [seedGo, if_neg h0, hsel]
        exact h1
      · push_neg at hcomp
        obtain ⟨s, hs, hc⟩ := hcomp
        obtain ⟨X', herr⟩ := select_err hB hY hwf hv ⟨s, hs, hc⟩
        refine ⟨X', ?_⟩
        simp only [seedGo, if_neg h0, herr]

theorem not_pairwise_iff_exists_pair {R : Cand → Cand → Prop}
    (hsym : ∀ a b, R a b → R b a) :
    ∀ {l : List Cand}, l.Nodup →
    (¬ l.Pairwise (fun a b => ¬ R a b) ↔ ∃ a ∈ l, ∃ b ∈ l, a ≠ b ∧ R a b) := by
  intro l
  induction l with
  | nil =>
    intro _
    simp
  | cons a l ih =>
    intro hnd
    rw [List.nodup_cons] at hnd
    rw [List.pairwise_cons]
    constructor
    · intro h
      rw [not_and_or] at h
      rcases h with h | h
      · push_neg at h
        obtain ⟨b, hb, hR⟩ := h
        exact ⟨a, List.mem_cons_self _ _, b, List.mem_cons_of_mem _ hb,
          fun he => hnd.1 (he ▸ hb), hR⟩
      · obtain ⟨x, hx, y, hy, hxy, hR⟩ := (ih hnd.2).mp h
        exact ⟨x, List.mem_cons_of_mem _ hx, y, List.mem_cons_of_mem _ hy, hxy, hR⟩
    · rintro ⟨x, hx, y, hy, hxy, hR⟩ ⟨hhead, htail⟩
      rcases List.mem_cons.mp hx with rfl | hx2
      · rcases List.mem_cons.mp hy with rfl | hy2
        · exact hxy rfl
        · exact hhead y hy2 hR
      · rcases List.mem_cons.mp hy with rfl | hy2
        · exact hhead x hx2 (hsym _ _ hR)
        · exact (ih hnd.2).mpr ⟨x, hx2, y, hy2, hxy, hR⟩ htail

theorem goodS_clues_iff {board : Grid} (hcb : checkBoard board = true) :
    goodS board.length (isqrt board.length) (clues board) ↔
      ¬ cluesConflict (isqrt board.length) board := by
  have hval : ∀ p ∈ clues board, validCand board.length p :=
    fun p hp => (clue_valid hcb p hp).1
  unfold cluesConflict
  rw [← not_pairwise_iff_exists_pair (fun a b h => conflict_comm.mp h) (nodup_clues board)]
  constructor
  · intro hg h
    exact h hg.2
  · intro hnc
    refine ⟨hval, ?_⟩
    by_contra h
    exact hnc h

/-! ### The search driver `attempt` -/

theorem select_frameY {X : XMap} {Y : YMap} {r : Cand} {cols : List (Finset Cand)}
    {X' : XMap} {Y' : YMap} (h : select X Y r = .ok (cols, X', Y')) : Y' = Y := by
  unfold select at h
  rcases hl : lookupA Y r with _ | is
  · rw [hl] at h
    exact absurd h (by simp)
  · rw [hl] at h
    dsimp only at h
    rcases hg : selectGo Y is X [] with e | ⟨cols2, X2⟩
    · rw [hg] at h
      exact absurd h (by simp)
    · rw [hg] at h
      dsimp only at h
      injection h with h2
      exact (congrArg (fun t : List (Finset Cand) × XMap × YMap => t.2.2) h2).symm

theorem deselect_frameY {X : XMap} {Y : YMap} {r : Cand} {cols : List (Finset Cand)}
    {X' : XMap} {Y' : YMap} (h : deselect X Y r cols = .ok (X', Y')) : Y' = Y := by
  unfold deselect at h
  rcases hl : lookupA Y r with _ | is
  · rw [hl] at h
    exact absurd h (by simp)
  · rw [hl] at h
    dsimp only at h
    rcases hg : deselectGo Y is.reverse cols X with e | X2
    · rw [hg] at h
      exact absurd h (by simp)
    · rw [hg] at h
      dsimp only at h
      injection h with h2
      exact (congrArg (fun t : XMap × YMap => t.2) h2).symm

theorem attempt_frame : ∀ (fuel : Nat),
    ∀ (X : XMap) (Y : YMap) (sol : List Cand) (sols : List (List Cand))
      (X2 : XMap) (Y2 : YMap) (sol2 : List Cand),
      attempt fuel X Y sol = (sols, .ok (X2, Y2, sol2)) → Y2 = Y ∧ sol2 = sol := by
  intro fuel
  induction fuel with
  | zero =>
    intro X Y sol sols X2 Y2 sol2 h
    simp only [attempt] at h
    exact absurd (congrArg Prod.snd h) (by simp)
  | succ fuel ih =>
    have htry : ∀ (rows : List Cand) (X : XMap) (Y : YMap) (sol : List Cand)
        (sols : List (List Cand)) (X2 : XMap) (Y2 : YMap) (sol2 : List Cand),
        tryRows fuel rows X Y sol = (sols, .ok (X2, Y2, sol2)) → Y2 = Y ∧ sol2 = sol := by
      intro rows
      induction rows with
      | nil =>
        intro X Y sol sols X2 Y2 sol2 h
        simp only [tryRows, tryRowsF] at h
        have h2 := congrArg Prod.snd h
        simp only at h2
        injection h2 with h3
        exact ⟨(congrArg (fun t : XMap × YMap × List Cand => t.2.1) h3).symm,
          (congrArg (fun t : XMap × YMap × List Cand => t.2.2) h3).symm⟩
      | cons r rs ihr =>
        intro X Y sol sols X2 Y2 sol2 h
        simp only [tryRows, tryRowsF] at h
        rcases hsel : select X Y r with e | res
        · rw [hsel] at h
          exact absurd (congrArg Prod.snd h) (by simp)
        · obtain ⟨cols, X1, Y1⟩ := res
          rw [hsel] at h
          dsimp only at h
          have hY1 : Y1 = Y := select_frameY hsel
          rcases hat : attempt fuel X1 Y1 (sol ++ [r]) with ⟨sols1, out1⟩
          rw [hat] at h
          rcases out1 with e | res1
          · dsimp only at h
            exact absurd (congrArg Prod.snd h) (by simp)
          · obtain ⟨Xa, Ya, sola⟩ := res1
            dsimp only at h
            obtain ⟨hYa, hsola⟩ := ih X1 Y1 (sol ++ [r]) sols1 Xa Ya sola hat
            rcases hdes : deselect Xa Ya r cols with e | res2
            · rw [hdes] at h
              exact absurd (congrArg Prod.snd h) (by simp)
            · obtain ⟨X3, Y3⟩ := res2
              rw [hdes] at h
              dsimp only at h
              have hY3 : Y3 = Ya := deselect_frameY hdes
              rcases htr : tryRowsF (attempt fuel) rs X3 Y3 sola.dropLast with ⟨sols2, out2⟩
              rw [htr] at h
              dsimp only at h
              have hout : out2 = .ok (X2, Y2, sol2) := congrArg Prod.snd h
              obtain ⟨hY2, hsol2⟩ := ihr X3 Y3 sola.dropLast sols2 X2 Y2 sol2
                (by rw [hout] at htr; exact htr)
              refine ⟨by rw [hY2, hY3, hYa, hY1], ?_⟩
              rw [hsol2, hsola, List.dropLast_concat]
    intro X Y sol sols X2 Y2 sol2 h
    simp only [attempt] at h
    by_cases hX : X = []
    · rw [if_pos hX] at h
      have h2 := congrArg Prod.snd h
      simp only at h2
      injection h2 with h3
      exact ⟨(congrArg (fun t : XMap × YMap × List Cand => t.2.1) h3).symm,
        (congrArg (fun t : XMap × YMap × List Cand => t.2.2) h3).symm⟩
    · rw [if_neg hX] at h
      rcases hc : choose X with _ | i
      · rw [hc] at h
        dsimp only at h
        exact absurd (congrArg Prod.snd h) (by simp)
      · rw [hc] at h
        dsimp only at h
        rcases hlk : lookupA X i with _ | A
        · rw [hlk] at h
          dsimp only at h
          exact absurd (congrArg Prod.snd h) (by simp)
        · rw [hlk] at h
          dsimp only at h
          exact htry _ _ _ _ _ _ _ _ h

theorem tryRows_frame (fuel : Nat) (rows : List Cand) (X : XMap) (Y : YMap)
    (sol : List Cand) (sols : List (List Cand)) (X2 : XMap) (Y2 : YMap)
    (sol2 : List Cand) (h : tryRows fuel rows X Y sol = (sols, .ok (X2, Y2, sol2))) :
    Y2 = Y ∧ sol2 = sol := by
  induction rows generalizing X Y sol sols with
  | nil =>
    simp only [tryRows, tryRowsF] at h
    have h2 := congrArg Prod.snd h
    simp only at h2
    injection h2 with h3
    exact ⟨(congrArg (fun t : XMap × YMap × List Cand => t.2.1) h3).symm,
      (congrArg (fun t : XMap × YMap × List Cand => t.2.2) h3).symm⟩
  | cons r rs ihr =>
    simp only [tryRows, tryRowsF] at h
    rcases hsel : select X Y r with e | res
    · rw [hsel] at h
      exact absurd (congrArg Prod.snd h) (by simp)
    · obtain ⟨cols, X1, Y1⟩ := res
      rw [hsel] at h
      dsimp only at h
      have hY1 : Y1 = Y := select_frameY hsel
      rcases hat : attempt fuel X1 Y1 (sol ++ [r]) with ⟨sols1, out1⟩
      rw [hat] at h
      rcases out1 with e | res1
      · dsimp only at h
        exact absurd (congrArg Prod.snd h) (by simp)
      · obtain ⟨Xa, Ya, sola⟩ := res1
        dsimp only at h
        obtain ⟨hYa, hsola⟩ := attempt_frame fuel X1 Y1 (sol ++ [r]) sols1 Xa Ya sola hat
        rcases hdes : deselect Xa Ya r cols with e | res2
        · rw [hdes] at h
          exact absurd (congrArg Prod.snd h) (by simp)
        · obtain ⟨X3, Y3⟩ := res2
          rw [hdes] at h
          dsimp only at h
          have hY3 : Y3 = Ya := deselect_frameY hdes
          rcases htr : tryRowsF (attempt fuel) rs X3 Y3 sola.dropLast with ⟨sols2, out2⟩
          rw [htr] at h
          dsimp only at h
          have hout : out2 = .ok (X2, Y2, sol2) := congrArg Prod.snd h
          obtain ⟨hY2, hsol2⟩ := ihr X3 Y3 sola.dropLast sols2
            (by rw [hout] at htr; exact htr)
          refine ⟨by rw [hY2, hY3, hYa, hY1], ?_⟩
          rw [hsol2, hsola, List.dropLast_concat]

theorem attempt_sound {N B : Nat} {Y : YMap}
    (hB : B * B = N)
    (hY : ∀ p : Cand, validCand N p → lookupA Y p = some (cons4 B p)) :
    ∀ (fuel : Nat) (S : List Cand) (X : XMap) (sol : List Cand)
      (sols : List (List Cand)) (out : Except Fail (XMap × YMap × List Cand)),
    wfX N B S X → goodS N B S →
    attempt fuel X Y sol = (sols, out) →
    (∀ t ∈ sols, ∃ e, t = sol ++ e ∧ goodS N B (S ++ e) ∧
      ∀ c, validCons N c → covered B (S ++ e) c) ∧
    (∀ X2 Y2 sol2, out = .ok (X2, Y2, sol2) → wfX N B S X2) := by
  intro fuel
  induction fuel with
  | zero =>
    intro S X sol sols out hwf hS h
    simp only [attempt] at h
    injection h with h1 h2
    subst h1
    subst h2
    refine ⟨by simp, ?_⟩
    intro X2 Y2 sol2 h2
    exact absurd h2 (by simp)
  | succ fuel ih =>
    have htry : ∀ (S : List Cand) (rows : List Cand) (X : XMap) (sol : List Cand)
        (sols : List (List Cand)) (out : Except Fail (XMap × YMap × List Cand)),
        wfX N B S X → goodS N B S →
        (∀ r ∈ rows, freeCand N B S r) →
        tryRows fuel rows X Y sol = (sols, out) →
        (∀ t ∈ sols, ∃ e, t = sol ++ e ∧ goodS N B (S ++ e) ∧
          ∀ c, validCons N c → covered B (S ++ e) c) ∧
        (∀ X2 Y2 sol2, out = .ok (X2, Y2, sol2) → wfX N B S X2) := by
      intro S rows
      induction rows generalizing S with
      | nil =>
        intro X sol sols out hwf hS _ h
        simp only [tryRows, tryRowsF] at h
        injection h with h1 h2
        subst h1
        subst h2
        refine ⟨by simp, ?_⟩
        intro X2 Y2 sol2 h2
        injection h2 with h3
        injection h3 with ha hb
        subst ha
        exact hwf
      | cons r rs ihr =>
        intro X sol sols out hwf hS hfree h
        simp only [tryRows, tryRowsF] at h
        have hfr : freeCand N B S r := hfree r (List.mem_cons_self _ _)
        obtain ⟨X1, hsel, hwf1⟩ := select_ok hB hY hwf hfr
        rw [hsel] at h
        dsimp only at h
        have hS1 : goodS N B (S ++ [r]) := goodS_append hS hfr
        rcases hat : attempt fuel X1 Y (sol ++ [r]) with ⟨sols1, out1⟩
        rw [hat] at h
        obtain ⟨hsols1, hout1⟩ := ih (S ++ [r]) X1 (sol ++ [r]) sols1 out1 hwf1 hS1 hat
        have hsols1' : ∀ t ∈ sols1, ∃ e, t = sol ++ e ∧ goodS N B (S ++ e) ∧
            ∀ c, validCons N c → covered B (S ++ e) c := by
          intro t ht
          obtain ⟨e, he1, he2, he3⟩ := hsols1 t ht
          have hassoc : S ++ r :: e = (S ++ [r]) ++ e := by
            rw [List.append_assoc, List.singleton_append]
          refine ⟨r :: e, ?_, ?_, ?_⟩
          · rw [he1, List.append_assoc, List.singleton_append]
          · rw [hassoc]
            exact he2
          · intro c hc
            rw [hassoc]
            exact he3 c hc
        rcases out1 with e1 | res1
        · dsimp only at h
          injection h with h1 h2
          subst h1
          subst h2
          refine ⟨hsols1', ?_⟩
          intro X2 Y2 sol2 h2
          exact absurd h2 (by simp)
        · obtain ⟨Xa, Ya, sola⟩ := res1
          dsimp only at h
          obtain ⟨hYa, hsola⟩ := attempt_frame fuel X1 Y (sol ++ [r]) sols1 Xa Ya sola hat
          rw [hYa, hsola, List.dropLast_concat] at h
          have hwfa : wfX N B (S ++ [r]) Xa := hout1 Xa Ya sola rfl
          obtain ⟨X3, hdes, hwf3⟩ := deselect_ok hB hY hwfa hfr
          rw [hdes] at h
          dsimp only at h
          rcases htr : tryRowsF (attempt fuel) rs X3 Y sol with ⟨sols2, out2⟩
          rw [htr] at h
          dsimp only at h
          obtain ⟨hsols2, hout2⟩ := ihr S X3 sol sols2 out2 hwf3 hS
            (fun r2 h2 => hfree r2 (List.mem_cons_of_mem _ h2)) htr
          injection h with h1 h2
          subst h1
          subst h2
          constructor
          · intro t ht
            rcases List.mem_append.mp ht with ht | ht
            · exact hsols1' t ht
            · exact hsols2 t ht
          · exact hout2
    intro S X sol sols out hwf hS h
    simp only [attempt] at h
    by_cases hX : X = []
    · rw [if_pos hX] at h
      injection h with h1 h2
      subst h1
      subst h2
      constructor
      · intro t ht
        rw [List.mem_singleton] at ht
        subst ht
        refine ⟨[], by simp, by simpa using hS, ?_⟩
        intro c hc
        by_contra hnc
        have hkey : c ∈ keysA X := (hwf.2.1 c).mpr ⟨hc, by simpa using hnc, by simp⟩
        rw [hX] at hkey
        simp [keysA] at hkey
      · intro X2 Y2 sol2 h2
        injection h2 with h3
        injection h3 with ha hb
        subst ha
        exact hwf
    · rw [if_neg hX] at h
      rcases hc : choose X with _ | i
      · rw [hc] at h
        dsimp only at h
        injection h with h1 h2
        subst h1
        subst h2
        refine ⟨by simp, ?_⟩
        intro X2 Y2 sol2 h2
        exact absurd h2 (by simp)
      · rw [hc] at h
        dsimp only at h
        rcases hlk : lookupA X i with _ | A
        · rw [hlk] at h
          dsimp only at h
          injection h with h1 h2
          subst h1
          subst h2
          refine ⟨by simp, ?_⟩
          intro X2 Y2 sol2 h2
          exact absurd h2 (by simp)
        · rw [hlk] at h
          dsimp only at h
          have hA : A = okSet N B S i := by
            have h2 := hwf.2.2 i A hlk
            rwa [okF_nil] at h2
          refine htry S (sortCands A) X sol sols out hwf hS ?_ h
          intro r hr
          rw [mem_sortCands, hA] at hr
          exact freeCand_of_mem_okSet hr

/-! ### The most-constrained scan of `attempt` -/

theorem chooseGo_spec : ∀ (l : List (Constraint × Finset Cand)) (best : Option Constraint)
    (bound : Nat) (i : Constraint),
    chooseGo l best bound = some i →
    (∃ A, (i, A) ∈ l ∧ A.card < bound ∧
      (A.card = 1 ∨ ∀ pr ∈ l, A.card ≤ pr.2.card)) ∨
    (best = some i ∧ (bound = 1 ∨ ∀ pr ∈ l, bound ≤ pr.2.card)) := by
  intro l
  induction l with
  | nil =>
    intro best bound i h
    right
    exact ⟨h, Or.inr (by simp)⟩
  | cons pr rest ih =>
    intro best bound i h
    obtain ⟨a, A⟩ := pr
    simp only [chooseGo] at h
    by_cases hlt : A.card < bound
    · simp only [if_pos hlt] at h
      by_cases h1 : A.card = 1
      · rw [if_pos h1] at h
        injection h with h2
        subst h2
        exact Or.inl ⟨A, List.mem_cons_self _ _, hlt, Or.inl h1⟩
      · rw [if_neg h1] at h
        rcases ih (some a) A.card i h with ⟨A', hmem, hlt', hdisj⟩ | ⟨heq, hdisj⟩
        · refine Or.inl ⟨A', List.mem_cons_of_mem _ hmem, lt_trans hlt' hlt, ?_⟩
          rcases hdisj with h2 | hall
          · exact Or.inl h2
          · refine Or.inr fun q hq => ?_
            rcases List.mem_cons.mp hq with rfl | hq
            · exact le_of_lt hlt'
            · exact hall q hq
        · injection heq with heq
          subst heq
          refine Or.inl ⟨A, List.mem_cons_self _ _, hlt, ?_⟩
          rcases hdisj with h2 | hall
          · exact Or.inl h2
          · refine Or.inr fun q hq => ?_
            rcases List.mem_cons.mp hq with rfl | hq
            · exact le_refl _
            · exact hall q hq
    · simp only [if_neg hlt] at h
      have hge : bound ≤ A.card := Nat.le_of_not_lt hlt
      by_cases hb1 : bound = 1
      · rw [if_pos hb1] at h
        exact Or.inr ⟨h, Or.inl hb1⟩
      · rw [if_neg hb1] at h
        rcases ih best bound i h with ⟨A', hmem, hlt', hdisj⟩ | ⟨heq, hdisj⟩
        · refine Or.inl ⟨A', List.mem_cons_of_mem _ hmem, hlt', ?_⟩
          rcases hdisj with h2 | hall
          · exact Or.inl h2
          · refine Or.inr fun q hq => ?_
            rcases List.mem_cons.mp hq with rfl | hq
            · exact le_trans (le_of_lt hlt') hge
            · exact hall q hq
        · refine Or.inr ⟨heq, ?_⟩
          rcases hdisj with h2 | hall
          · exact Or.inl h2
          · refine Or.inr fun q hq => ?_
            rcases List.mem_cons.mp hq with rfl | hq
            · exact hge
            · exact hall q hq

theorem choose_spec {X : XMap} {i : Constraint} (h : choose X = some i) :
    ∃ A, (i, A) ∈ X ∧ A.card < 10 ∧
      (A.card = 1 ∨ ∀ pr ∈ X, A.card ≤ pr.2.card) := by
  rcases chooseGo_spec X none 10 i h with h1 | ⟨h2, _⟩
  · exact h1
  · exact absurd h2 (by simp)

theorem chooseGo_stop : ∀ (l : List (Constraint × Finset Cand)) (best : Option Constraint)
    (bound : Nat), bound ≠ 1 → (∀ pr ∈ l, bound ≤ pr.2.card) →
    chooseGo l best bound = best := by
  intro l
  induction l with
  | nil => intro best bound _ _; rfl
  | cons pr rest ih =>
    intro best bound hb1 hall
    obtain ⟨a, A⟩ := pr
    have hle : bound ≤ A.card := hall (a, A) (List.mem_cons_self _ _)
    have hlt : ¬ A.card < bound := Nat.not_lt.mpr hle
    simp only [chooseGo, if_neg hlt]
    rw [if_neg hb1]
    exact ih best bound hb1 fun q hq => hall q (List.mem_cons_of_mem _ hq)

theorem choose_none {X : XMap} (h : ∀ pr ∈ X, 10 ≤ pr.2.card) : choose X = none :=
  chooseGo_stop X none 10 (by omega) h

/-! ### The degenerate runs used by the large-board analysis -/

theorem seedGo_zero {Y : YMap} {board : Grid} :
    ∀ (rcs : List (Nat × Nat)) (X : XMap),
    (∀ rc ∈ rcs, gridVal board rc.1 rc.2 = 0) →
    seedGo Y board rcs X = .ok X := by
  intro rcs
  induction rcs with
  | nil => intro X _; rfl
  | cons rc rest ih =>
    intro X hz
    simp only [seedGo]
    rw [if_pos (hz rc (List.mem_cons_self _ _))]
    exact ih X fun rc2 h2 => hz rc2 (List.mem_cons_of_mem _ h2)

theorem nodup_keysA_builtX (N B : Nat) : (keysA (builtX N B)).Nodup := by
  rw [show keysA (builtX N B) = keysA (initX N) from keysA_populate _ _]
  exact nodup_keysA_initX N

theorem card_of_mem_builtX {N B : Nat} (hB : B * B = N) {pr : Constraint × Finset Cand}
    (h : pr ∈ builtX N B) : pr.2.card = N := by
  obtain ⟨c, A⟩ := pr
  have hlk : lookupA (builtX N B) c = some A :=
    lookupA_of_mem (nodup_keysA_builtX N B) h
  rw [lookupA_builtX] at hlk
  by_cases hv : validCons N c
  · rw [if_pos hv] at hlk
    injection hlk with hlk
    rw [← hlk]
    exact card_okSet_nil hB hv
  · rw [if_neg hv] at hlk
    exact absurd hlk (by simp)

theorem attempt_unbound {X : XMap} {Y : YMap} {sol : List Cand} {fuel : Nat}
    (hne : X ≠ []) (hch : choose X = none) :
    attempt (fuel + 1) X Y sol = ([], .error (.unbound, X)) := by
  simp only [attempt]
  rw [if_neg hne, hch]

theorem builtX_ne_nil {N B : Nat} (hN : 0 < N) : builtX N B ≠ [] := by
  intro h
  have h2 := length_builtX N B
  rw [h] at h2
  simp at h2
  omega

theorem solve_allzero_stuck {board : Grid}
    (hz : ∀ i j, gridVal board i j = 0)
    (hsq : isqrt board.length * isqrt board.length = board.length)
    (hN : 10 ≤ board.length) :
    solve board = ([], .error (.search .unbound)) := by
  unfold solve
  dsimp only
  rw [seedGo_zero (cells board.length) (builtX board.length (isqrt board.length))
    (fun rc _ => hz rc.1 rc.2)]
  dsimp only
  rw [attempt_unbound (builtX_ne_nil (by omega))
    (choose_none fun pr hpr => by
      rw [card_of_mem_builtX hsq hpr]
      exact hN)]
  rfl

/-! ### Writing a solution into a copy of the board -/

theorem getD_set_eq {α : Type _} {l : List α} {i : Nat} (a d : α) (h : i < l.length) :
    (l.set i a).getD i d = a := by
  rw [List.getD_eq_getElem?_getD, List.getElem?_set_eq h, Option.getD_some]

theorem getD_set_ne {α : Type _} {l : List α} {i j : Nat} (a d : α) (h : i ≠ j) :
    (l.set i a).getD j d = l.getD j d := by
  rw [List.getD_eq_getElem?_getD, List.getElem?_set_ne h, ← List.getD_eq_getElem?_getD]

theorem getD_row_length {N : Nat} {g : Grid} (hsh : gridShape N g) {i : Nat}
    (hi : i < N) : (g.getD i []).length = N := by
  have hi' : i < g.length := by rw [hsh.1]; exact hi
  rw [List.getD_eq_getElem _ _ hi']
  exact hsh.2 _ (List.getElem_mem hi')

theorem gridShape_writeCell {N : Nat} {g : Grid} (h : gridShape N g) (r c n : Nat) :
    gridShape N (writeCell g r c n) := by
  by_cases hr : r < g.length
  · refine ⟨by rw [writeCell, List.length_set, h.1], ?_⟩
    intro row hrow
    rcases List.mem_or_eq_of_mem_set hrow with h1 | h1
    · exact h.2 row h1
    · rw [h1, List.length_set]
      exact getD_row_length h (by rw [← h.1]; exact hr)
  · rw [writeCell, List.set_eq_of_length_le (Nat.le_of_not_lt hr)]
    exact h

theorem gridShape_writeGrid {N : Nat} :
    ∀ (sol : List Cand) (g : Grid), gridShape N g → gridShape N (writeGrid g sol) := by
  intro sol
  induction sol with
  | nil => intro g h; exact h
  | cons q rest ih => intro g h; exact ih _ (gridShape_writeCell h _ _ _)

theorem gridVal_writeCell_self {g : Grid} {r c : Nat} (n : Nat)
    (hr : r < g.length) (hc : c < (g.getD r []).length) :
    gridVal (writeCell g r c n) r c = n := by
  unfold gridVal writeCell
  rw [getD_set_eq _ _ hr, getD_set_eq _ _ hc]

theorem gridVal_writeCell_ne {g : Grid} {r c r' c' : Nat} (n : Nat)
    (h : r' ≠ r ∨ c' ≠ c) :
    gridVal (writeCell g r c n) r' c' = gridVal g r' c' := by
  unfold gridVal writeCell
  by_cases hrr : r' = r
  · subst hrr
    have hc : c' ≠ c := by
      rcases h with h | h
      · exact absurd rfl h
      · exact h
    by_cases hrl : r' < g.length
    · rw [getD_set_eq _ _ hrl, getD_set_ne _ _ (Ne.symm hc)]
    · rw [List.set_eq_of_length_le (Nat.le_of_not_lt hrl)]
  · rw [getD_set_ne _ _ (fun h2 => hrr h2.symm)]

theorem gridVal_writeGrid_frame {i j : Nat} :
    ∀ (sol : List Cand) (g : Grid),
    (∀ p ∈ sol, ¬(p.1 = i ∧ p.2.1 = j)) →
    gridVal (writeGrid g sol) i j = gridVal g i j := by
  intro sol
  induction sol with
  | nil => intro g _; rfl
  | cons q rest ih =>
    intro g hq
    have h1 : ¬(q.1 = i ∧ q.2.1 = j) := hq q (List.mem_cons_self _ _)
    have hstep : gridVal (writeCell g q.1 q.2.1 q.2.2) i j = gridVal g i j := by
      apply gridVal_writeCell_ne
      by_cases hqi : q.1 = i
      · right
        exact fun hc => h1 ⟨hqi, hc.symm⟩
      · left
        exact fun hc => hqi hc.symm
    rw [show writeGrid g (q :: rest) = writeGrid (writeCell g q.1 q.2.1 q.2.2) rest from rfl]
    rw [ih _ fun p hp => hq p (List.mem_cons_of_mem _ hp)]
    exact hstep

theorem gridVal_writeGrid_of_mem {N : Nat} {i j n : Nat} :
    ∀ (sol : List Cand) (g : Grid), gridShape N g →
    (i, j, n) ∈ sol → i < N → j < N →
    (∀ p ∈ sol, p.1 = i → p.2.1 = j → p = (i, j, n)) →
    gridVal (writeGrid g sol) i j = n := by
  intro sol
  induction sol with
  | nil =>
    intro g _ hin
    exact absurd hin (by simp)
  | cons q rest ih =>
    intro g hsh hin hi hj huniq
    rw [show writeGrid g (q :: rest) = writeGrid (writeCell g q.1 q.2.1 q.2.2) rest from rfl]
    by_cases hw : ∃ p ∈ rest, p.1 = i ∧ p.2.1 = j
    · obtain ⟨p, hp, hp1, hp2⟩ := hw
      have hpn : p = (i, j, n) := huniq p (List.mem_cons_of_mem _ hp) hp1 hp2
      exact ih _ (gridShape_writeCell hsh _ _ _) (hpn ▸ hp) hi hj
        fun p2 hp2 ha hb => huniq p2 (List.mem_cons_of_mem _ hp2) ha hb
    · have hqn : q = (i, j, n) := by
        rcases List.mem_cons.mp hin with h1 | h1
        · exact h1.symm
        · exact absurd ⟨(i, j, n), h1, rfl, rfl⟩ hw
      rw [gridVal_writeGrid_frame rest _ fun p hp hc => hw ⟨p, hp, hc⟩]
      subst hqn
      exact gridVal_writeCell_self n (by rw [hsh.1]; exact hi)
        (by rw [getD_row_length hsh hi]; exact hj)

theorem gridVal_zero_of_ge {N : Nat} {g : Grid} (hsh : gridShape N g) {i j : Nat}
    (h : N ≤ i ∨ N ≤ j) : gridVal g i j = 0 := by
  by_cases hi : i < N
  · rcases h with h | h
    · omega
    · unfold gridVal
      rw [List.getD_eq_default _ _ (by rw [getD_row_length hsh hi]; exact h)]
  · unfold gridVal
    rw [show List.getD g i [] = [] from List.getD_eq_default _ _ (by rw [hsh.1]; omega)]
    rfl

theorem mem_clues {board : Grid} {p : Cand} :
    p ∈ clues board ↔ p.1 < board.length ∧ p.2.1 < board.length ∧
      gridVal board p.1 p.2.1 = p.2.2 ∧ p.2.2 ≠ 0 := by
  obtain ⟨i, j, n⟩ := p
  unfold clues cluesOf
  rw [List.mem_filterMap]
  constructor
  · rintro ⟨rc, hrc, hf⟩
    dsimp only at hf
    by_cases h0 : gridVal board rc.1 rc.2 = 0
    · rw [if_pos h0] at hf
      exact absurd hf (by simp)
    · rw [if_neg h0] at hf
      injection hf with hf
      obtain ⟨h1, h2⟩ := mem_cells.mp hrc
      rw [Prod.mk.injEq, Prod.mk.injEq] at hf
      obtain ⟨e1, e2, e3⟩ := hf
      subst e1
      subst e2
      subst e3
      exact ⟨h1, h2, rfl, h0⟩
  · rintro ⟨hi, hj, hval, hn0⟩
    refine ⟨(i, j), mem_cells.mpr ⟨hi, hj⟩, ?_⟩
    dsimp only
    rw [hval, if_neg hn0]

theorem goodS_unique_coverer {N B : Nat} {T : List Cand} (hg : goodS N B T)
    {s₁ s₂ : Cand} (h₁ : s₁ ∈ T) (h₂ : s₂ ∈ T) {c : Constraint}
    (hc₁ : c ∈ cons4 B s₁) (hc₂ : c ∈ cons4 B s₂) : s₁ = s₂ := by
  by_contra hne
  have hsymm : Symmetric (fun p q : Cand => ¬ conflict B p q) :=
    fun p q h hc => h (conflict_comm.mp hc)
  exact (hg.2.forall hsymm) h₁ h₂ hne ⟨c, hc₁, hc₂⟩

theorem nodup_of_goodS {N B : Nat} {T : List Cand} (hg : goodS N B T) : T.Nodup :=
  hg.2.imp fun h => fun heq => absurd (heq ▸ conflict_self _ _) h

theorem rowcol_mem_cons4 {B : Nat} {p : Cand} {i j : Nat} :
    (Constraint.rowcol i j ∈ cons4 B p) ↔ p.1 = i ∧ p.2.1 = j := by
  rw [mem_cons4]
  constructor
  · rintro (h | h | h | h) <;> simp_all
  · rintro ⟨h1, h2⟩
    left
    rw [h1, h2]

theorem rownum_mem_cons4 {B : Nat} {p : Cand} {i n : Nat} :
    (Constraint.rownum i n ∈ cons4 B p) ↔ p.1 = i ∧ p.2.2 = n := by
  rw [mem_cons4]
  constructor
  · rintro (h | h | h | h) <;> simp_all
  · rintro ⟨h1, h2⟩
    right
    left
    rw [h1, h2]

theorem colnum_mem_cons4 {B : Nat} {p : Cand} {j n : Nat} :
    (Constraint.colnum j n ∈ cons4 B p) ↔ p.2.1 = j ∧ p.2.2 = n := by
  rw [mem_cons4]
  constructor
  · rintro (h | h | h | h) <;> simp_all
  · rintro ⟨h1, h2⟩
    right
    right
    left
    rw [h1, h2]

theorem blcnum_mem_cons4 {B : Nat} {p : Cand} {bi n : Nat} :
    (Constraint.blcnum bi n ∈ cons4 B p) ↔ blockOf B p.1 p.2.1 = bi ∧ p.2.2 = n := by
  rw [mem_cons4]
  unfold blockOf
  constructor
  · rintro (h | h | h | h) <;> simp_all
  · rintro ⟨h1, h2⟩
    right
    right
    right
    rw [h1, h2]

theorem cover_to_solution {N B : Nat} {board : Grid}
    (hsh : gridShape N board)
    {e : List Cand}
    (hgood : goodS N B (clues board ++ e))
    (hcov : ∀ c, validCons N c → covered B (clues board ++ e) c) :
    validSolution N B (writeGrid board e) ∧
    ∀ i j, gridVal board i j ≠ 0 →
      gridVal (writeGrid board e) i j = gridVal board i j := by
  have hN : board.length = N := hsh.1
  have hval : ∀ p ∈ clues board ++ e, validCand N p := hgood.1
  have huc : ∀ s₁ ∈ clues board ++ e, ∀ s₂ ∈ clues board ++ e,
      ∀ c, c ∈ cons4 B s₁ → c ∈ cons4 B s₂ → s₁ = s₂ :=
    fun s₁ h₁ s₂ h₂ c hc₁ hc₂ => goodS_unique_coverer hgood h₁ h₂ hc₁ hc₂
  have hnd : (clues board ++ e).Nodup := nodup_of_goodS hgood
  have hD2 : ∀ i j n, (i, j, n) ∈ clues board ++ e →
      gridVal (writeGrid board e) i j = n := by
    intro i j n hin
    obtain ⟨hi, hj, hn1, hn2⟩ := hval _ hin
    rcases List.mem_append.mp hin with hcl | he
    · have hbv : gridVal board i j = n := (mem_clues.mp hcl).2.2.1
      have hfr : ∀ p ∈ e, ¬(p.1 = i ∧ p.2.1 = j) := by
        intro p hp hc
        have hpe : p = (i, j, n) :=
          huc p (List.mem_append.mpr (Or.inr hp)) (i, j, n) hin (.rowcol i j)
            (rowcol_mem_cons4.mpr ⟨hc.1, hc.2⟩) (rowcol_mem_cons4.mpr ⟨rfl, rfl⟩)
        rw [hpe] at hp
        exact (List.disjoint_of_nodup_append hnd) hcl hp
      rw [gridVal_writeGrid_frame e board hfr]
      exact hbv
    · refine gridVal_writeGrid_of_mem e board hsh he hi hj ?_
      intro p hp h1 h2
      exact huc p (List.mem_append.mpr (Or.inr hp)) (i, j, n) hin (.rowcol i j)
        (rowcol_mem_cons4.mpr ⟨h1, h2⟩) (rowcol_mem_cons4.mpr ⟨rfl, rfl⟩)
  have hcell : ∀ i, i < N → ∀ j, j < N → ∃ n, (i, j, n) ∈ clues board ++ e ∧
      gridVal (writeGrid board e) i j = n := by
    intro i hi j hj
    obtain ⟨s, hsT, hsc⟩ := hcov (.rowcol i j) ⟨hi, hj⟩
    obtain ⟨h1, h2⟩ := rowcol_mem_cons4.mp hsc
    obtain ⟨a, b, c⟩ := s
    dsimp only at h1 h2
    subst h1
    subst h2
    exact ⟨c, hsT, hD2 _ _ _ hsT⟩
  have hshape := gridShape_writeGrid e board hsh
  refine ⟨⟨hshape.1, hshape.2, ?_, ?_, ?_, ?_⟩, ?_⟩
  · intro i hi j hj
    obtain ⟨n, hmem, hg⟩ := hcell i hi j hj
    obtain ⟨_, _, hn1, hn2⟩ := hval _ hmem
    rw [hg]
    exact ⟨hn1, hn2⟩
  · intro i hi n hn1 hn2
    obtain ⟨s, hsT, hsc⟩ := hcov (.rownum i n) ⟨hi, hn1, hn2⟩
    obtain ⟨h1, h2⟩ := rownum_mem_cons4.mp hsc
    obtain ⟨a, b, c⟩ := s
    dsimp only at h1 h2
    subst a
    subst c
    have hbN : b < N := (hval _ hsT).2.1
    have hgb : gridVal (writeGrid board e) i b = n := hD2 _ _ _ hsT
    rw [show ((Finset.range N).filter fun j => gridVal (writeGrid board e) i j = n)
        = {b} from ?_]
    · exact Finset.card_singleton _
    · apply Finset.ext
      intro j
      rw [Finset.mem_filter, Finset.mem_range, Finset.mem_singleton]
      constructor
      · rintro ⟨hjN, hgj⟩
        obtain ⟨m, hmT, hgm⟩ := hcell i hi j hjN
        have hmn : m = n := by rw [← hgm, hgj]
        subst hmn
        have heq := huc _ hmT _ hsT (.rownum i m)
          (rownum_mem_cons4.mpr ⟨rfl, rfl⟩) (rownum_mem_cons4.mpr ⟨rfl, rfl⟩)
        injection heq with e1 e2
        injection e2 with e3 e4
      · rintro rfl
        exact ⟨hbN, hgb⟩
  · intro j hj n hn1 hn2
    obtain ⟨s, hsT, hsc⟩ := hcov (.colnum j n) ⟨hj, hn1, hn2⟩
    obtain ⟨h1, h2⟩ := colnum_mem_cons4.mp hsc
    obtain ⟨a, b, c⟩ := s
    dsimp only at h1 h2
    subst b
    subst c
    have haN : a < N := (hval _ hsT).1
    have hga : gridVal (writeGrid board e) a j = n := hD2 _ _ _ hsT
    rw [show ((Finset.range N).filter fun i => gridVal (writeGrid board e) i j = n)
        = {a} from ?_]
    · exact Finset.card_singleton _
    · apply Finset.ext
      intro i
      rw [Finset.mem_filter, Finset.mem_range, Finset.mem_singleton]
      constructor
      · rintro ⟨hiN, hgi⟩
        obtain ⟨m, hmT, hgm⟩ := hcell i hiN j hj
        have hmn : m = n := by rw [← hgm, hgi]
        subst hmn
        have heq := huc _ hmT _ hsT (.colnum j m)
          (colnum_mem_cons4.mpr ⟨rfl, rfl⟩) (colnum_mem_cons4.mpr ⟨rfl, rfl⟩)
        injection heq with e1 e2
      · rintro rfl
        exact ⟨haN, hga⟩
  · intro bi hbi n hn1 hn2
    obtain ⟨s, hsT, hsc⟩ := hcov (.blcnum bi n) ⟨hbi, hn1, hn2⟩
    obtain ⟨h1, h2⟩ := blcnum_mem_cons4.mp hsc
    obtain ⟨a, b, c⟩ := s
    dsimp only at h1 h2
    subst c
    have haN : a < N := (hval _ hsT).1
    have hbN : b < N := (hval _ hsT).2.1
    have hgab : gridVal (writeGrid board e) a b = n := hD2 _ _ _ hsT
    rw [show ((Finset.range N ×ˢ Finset.range N).filter fun rc =>
        blockOf B rc.1 rc.2 = bi ∧ gridVal (writeGrid board e) rc.1 rc.2 = n)
        = {(a, b)} from ?_]
    · exact Finset.card_singleton _
    · apply Finset.ext
      intro rc
      obtain ⟨r, c'⟩ := rc
      rw [Finset.mem_filter, Finset.mem_product, Finset.mem_range, Finset.mem_range,
        Finset.mem_singleton]
      constructor
      · rintro ⟨⟨hrN, hcN⟩, hbl, hgr⟩
        obtain ⟨m, hmT, hgm⟩ := hcell r hrN c' hcN
        have hmn : m = n := by rw [← hgm, hgr]
        subst hmn
        have heq := huc _ hmT _ hsT (.blcnum bi m)
          (blcnum_mem_cons4.mpr ⟨hbl, rfl⟩) (blcnum_mem_cons4.mpr ⟨h1, rfl⟩)
        injection heq with e1 e2
        injection e2 with e3 e4
        rw [Prod.mk.injEq]
        exact ⟨e1, e3⟩
      · rintro heq
        rw [Prod.mk.injEq] at heq
        obtain ⟨rfl, rfl⟩ := heq
        exact ⟨⟨haN, hbN⟩, h1, hgab⟩
  · intro i j h0
    have hi : i < N := by
      by_contra h
      exact h0 (gridVal_zero_of_ge hsh (Or.inl (Nat.le_of_not_lt h)))
    have hj : j < N := by
      by_contra h
      exact h0 (gridVal_zero_of_ge hsh (Or.inr (Nat.le_of_not_lt h)))
    have hcl : (i, j, gridVal board i j) ∈ clues board :=
      mem_clues.mpr ⟨by rw [hN]; exact hi, by rw [hN]; exact hj, rfl, h0⟩
    exact hD2 i j _ (List.mem_append.mpr (Or.inl hcl))

theorem solve_yields {board : Grid} (hcb : checkBoard board = true) :
    ∀ g ∈ (solve board).1, ∃ e,
      g = writeGrid board e ∧
      goodS board.length (isqrt board.length) (clues board ++ e) ∧
      ∀ c, validCons board.length c →
        covered (isqrt board.length) (clues board ++ e) c := by
  intro g hg
  obtain ⟨hsq, hrows, hle⟩ := checkBoard_iff.mp hcb
  have hY : ∀ p : Cand, validCand board.length p →
      lookupA (buildY board.length (isqrt board.length)) p
        = some (cons4 (isqrt board.length) p) := by
    intro p hp
    rw [lookupA_buildY, if_pos hp]
  have hvalid : ∀ rc ∈ cells board.length, gridVal board rc.1 rc.2 ≠ 0 →
      validCand board.length (rc.1, rc.2, gridVal board rc.1 rc.2) := by
    intro rc hrc h0
    obtain ⟨h1, h2⟩ := mem_cells.mp hrc
    exact ⟨h1, h2, Nat.one_le_iff_ne_zero.mpr h0, gridVal_le hcb rc.1 rc.2⟩
  unfold solve at hg
  dsimp only at hg
  rcases hseed : seedGo (buildY board.length (isqrt board.length)) board
      (cells board.length) (builtX board.length (isqrt board.length)) with e0 | X1
  · rw [hseed] at hg
    dsimp only at hg
    exact absurd hg (by simp)
  · rw [hseed] at hg
    dsimp only at hg
    by_cases hgood : goodS board.length (isqrt board.length) (clues board)
    · obtain ⟨X', hok, hwf⟩ := seedGo_consistent hsq hY (cells board.length) []
        (builtX board.length (isqrt board.length)) wfX_builtX
        (by simpa [clues] using hgood) hvalid
      rw [hok] at hseed
      injection hseed with hseed
      subst hseed
      rcases hat : attempt (4 * board.length * board.length + 1) X'
          (buildY board.length (isqrt board.length)) [] with ⟨sols, out⟩
      rw [hat] at hg
      have hg2 : g ∈ sols.map (writeGrid board) := by
        rcases out with e1 | r1
        · dsimp only at hg
          exact hg
        · dsimp only at hg
          exact hg
      obtain ⟨t, ht, rfl⟩ := List.mem_map.mp hg2
      obtain ⟨hsols, -⟩ := attempt_sound hsq hY (4 * board.length * board.length + 1)
        (clues board) X' [] sols out hwf hgood hat
      obtain ⟨e, he1, he2, he3⟩ := hsols t ht
      rw [List.nil_append] at he1
      subst he1
      exact ⟨t, rfl, he2, he3⟩
    · obtain ⟨X2, herr⟩ := seedGo_conflict hsq hY (cells board.length) []
        (builtX board.length (isqrt board.length)) wfX_builtX
        ⟨by simp, by simp⟩ hvalid (by simpa [clues] using hgood)
      rw [herr] at hseed
      exact absurd hseed (by simp)

/-- C1: every grid yielded by `solve` on a validated board is a complete
valid solution (shape preserved, every entry in `1..N`, every row,
column and block containing each value exactly once) that agrees with
every non-zero clue of the input board. -/
theorem claim_C1 {board : Grid} (hcb : checkBoard board = true) :
    ∀ g ∈ (solve board).1, completionOf board g := by
  intro g hg
  obtain ⟨e, rfl, hgood, hcov⟩ := solve_yields hcb g hg
  have hsh : gridShape board.length board :=
    ⟨rfl, (checkBoard_iff.mp hcb).2.1⟩
  obtain ⟨h1, h2⟩ := cover_to_solution hsh hgood hcov
  exact ⟨h1, h2⟩

theorem claim_C1_witness :
    checkBoard [[1]] = true ∧ completionOf [[1]] [[1]] :=
  ⟨by decide, claim_C1 (by decide) [[1]] (by decide)⟩

/-! ### Content restoration and liveness -/

theorem wfX_contentEq {N B : Nat} {S : List Cand} {X₁ X₂ : XMap}
    (h₁ : wfX N B S X₁) (h₂ : wfX N B S X₂) : contentEq X₁ X₂ := by
  intro c
  rcases hl : lookupA X₁ c with _ | A
  · have hk : c ∉ keysA X₁ := by
      rw [← lookupA_isSome, hl]
      simp
    rw [pwfX_key_iff h₁] at hk
    have hk2 : c ∉ keysA X₂ := by
      rw [pwfX_key_iff h₂]
      exact hk
    rw [lookupA_eq_none.mpr hk2]
  · have hk : c ∈ keysA X₁ := by
      rw [← lookupA_isSome, hl]
      rfl
    have hA : A = okF N B S [] c := h₁.2.2 c A hl
    have hk2 : c ∈ keysA X₂ := by
      rw [pwfX_key_iff h₂]
      exact (pwfX_key_iff h₁).mp hk
    rw [pwfX_lookup_of_key h₂ hk2, hA]

theorem liveInB_iff {N B : Nat} {S : List Cand} {X : XMap} {p : Cand}
    (hB : B * B = N) (hwf : wfX N B S X) :
    liveInB B X p = true ↔ freeCand N B S p := by
  unfold liveInB
  rw [List.all_eq_true]
  constructor
  · intro h
    have h0 := h (.rowcol p.1 p.2.1) (by rw [mem_cons4]; left; rfl)
    rcases hl : lookupA X (.rowcol p.1 p.2.1) with _ | A
    · rw [hl] at h0
      exact absurd h0 (by simp)
    · rw [hl] at h0
      have hpA : p ∈ A := by simpa using h0
      have hA : A = okF N B S [] (.rowcol p.1 p.2.1) := hwf.2.2 _ A hl
      rw [hA, okF_nil] at hpA
      obtain ⟨hv, _, hcomp⟩ := mem_okSet.mp hpA
      exact ⟨hv, hcomp⟩
  · intro hfree k hk
    have hkv : validCons N k := validCons_of_mem_cons4 hB hfree.1 hk
    have hkc : ¬ covered B S k := not_covered_of_free hfree hk
    have hkk : k ∈ keysA X := (pwfX_key_iff hwf).mpr ⟨hkv, hkc, by simp⟩
    rw [pwfX_lookup_of_key hwf hkk]
    rw [okF_nil, decide_eq_true_eq]
    exact mem_okSet.mpr ⟨hfree.1, hk, hfree.2⟩

/-- C4: for a reachable index state (`wfX` is the invariant every state
of a run of `solve` satisfies) and a candidate row live in `X` under each
of its four constraints, `select` followed by `deselect` with the
returned snapshot list restores `X` to a content-equal state (same
lookups for every constraint key). -/
theorem claim_C4 {N B : Nat} {S : List Cand} {X : XMap} {Y : YMap} {r : Cand}
    (hB : B * B = N)
    (hY : ∀ p : Cand, validCand N p → lookupA Y p = some (cons4 B p))
    (hwf : wfX N B S X) (hlive : liveInB B X r = true) :
    ∃ cols X₁ X₂, select X Y r = .ok (cols, X₁, Y) ∧
      deselect X₁ Y r cols = .ok (X₂, Y) ∧ contentEq X X₂ := by
  have hfree : freeCand N B S r := (liveInB_iff hB hwf).mp hlive
  obtain ⟨X₁, hsel, hwf₁⟩ := select_ok hB hY hwf hfree
  obtain ⟨X₂, hdes, hwf₂⟩ := deselect_ok hB hY hwf₁ hfree
  exact ⟨_, X₁, X₂, hsel, hdes, wfX_contentEq hwf hwf₂⟩

theorem claim_C4_witness :
    ∃ cols X₁ X₂,
      select (builtX 1 1) (buildY 1 1) (0, 0, 1) = .ok (cols, X₁, buildY 1 1) ∧
      deselect X₁ (buildY 1 1) (0, 0, 1) cols = .ok (X₂, buildY 1 1) ∧
      contentEq (builtX 1 1) X₂ :=
  claim_C4 (by decide) (fun p hp => by rw [lookupA_buildY, if_pos hp])
    wfX_builtX (by decide)

/-- C5 (amended): when `attempt`'s scan settles on a constraint, that
constraint has fewer than 10 candidates, and it either has exactly one
candidate (the `L == 1` early break can stop the scan before a smaller,
even empty, constraint later in `X`) or has minimum cardinality over
all constraints currently in `X`. -/
theorem claim_C5_amended {X : XMap} {i : Constraint} (h : choose X = some i) :
    ∃ A, (i, A) ∈ X ∧ A.card < 10 ∧
      (A.card = 1 ∨ ∀ pr ∈ X, A.card ≤ pr.2.card) :=
  choose_spec h

theorem claim_C5_amended_witness :
    ∃ A, (Constraint.rowcol 0 0, A) ∈ builtX 1 1 ∧ A.card < 10 ∧
      (A.card = 1 ∨ ∀ pr ∈ builtX 1 1, A.card ≤ pr.2.card) :=
  claim_C5_amended (by decide)

set_option maxRecDepth 4000 in
/-- C5 counterexample: seeding the validated 4×4 board
`[[0,3,0,0],[2,0,1,4],[4,0,0,0],[0,0,0,0]]` succeeds and leaves a state
in which `attempt`'s scan chooses `rowcol 0 0`, whose candidate set has
cardinality 1, even though `rowcol 1 1` is still in `X` with an empty
candidate set — so the chosen constraint does not have the minimum
candidate-set cardinality. -/
theorem claim_C5_cex :
    checkBoard [[0, 3, 0, 0], [2, 0, 1, 4], [4, 0, 0, 0], [0, 0, 0, 0]] = true ∧
    ((seedX [[0, 3, 0, 0], [2, 0, 1, 4], [4, 0, 0, 0], [0, 0, 0, 0]]).toOption.map
      fun X5 =>
        (decide (choose X5 = some (.rowcol 0 0)),
         (lookupA X5 (.rowcol 0 0)).map Finset.card,
         (lookupA X5 (.rowcol 1 1)).map Finset.card))
      = some (true, some 1, some 0) := by
  constructor
  · decide
  · decide

/-- C7: for a perfect-square board size `N` (`B * B = N`), the builder
produces `Y` with `N ^ 3` entries, each valid candidate mapped to exactly
its four constraints (cell, row-value, column-value, block-value with
block `B * (row / B) + col / B`, which is what `cons4` lists), and the
initial `X` with `4 * N ^ 2` entries, each valid constraint mapped to
exactly the `N` candidates satisfying it. -/
theorem claim_C7 {N B : Nat} (hB : B * B = N) :
    (buildY N B).length = N ^ 3 ∧
    (∀ p : Cand, lookupA (buildY N B) p =
      if validCand N p then some (cons4 B p) else none) ∧
    (builtX N B).length = 4 * N ^ 2 ∧
    (∀ c : Constraint, lookupA (builtX N B) c =
      if validCons N c then some (okSet N B [] c) else none) ∧
    (∀ c : Constraint, validCons N c → (okSet N B [] c).card = N) :=
  ⟨length_buildY N B, fun p => lookupA_buildY p, length_builtX N B,
    fun c => lookupA_builtX c, fun c hc => card_okSet_nil hB hc⟩

theorem claim_C7_witness :
    (buildY 4 2).length = 4 ^ 3 ∧ (builtX 4 2).length = 4 * 4 ^ 2 ∧
    (okSet 4 2 [] (.rowcol 0 0)).card = 4 :=
  ⟨(claim_C7 (by decide)).1, (claim_C7 (by decide)).2.2.1,
    (claim_C7 (by decide)).2.2.2.2 _ (by decide)⟩

/-- C9: a call of `attempt` whose generator is run to exhaustion (it
returns normally rather than raising) leaves the partial-solution list
exactly as it received it: every appended candidate is popped again
after the matching `deselect`. -/
theorem claim_C9 (fuel : Nat) (X : XMap) (Y : YMap) (sol : List Cand)
    (sols : List (List Cand)) (X2 : XMap) (Y2 : YMap) (sol2 : List Cand)
    (h : attempt fuel X Y sol = (sols, .ok (X2, Y2, sol2))) : sol2 = sol :=
  (attempt_frame fuel X Y sol sols X2 Y2 sol2 h).2

theorem claim_C9_witness : [((0, 0, 1) : Cand)] = [(0, 0, 1)] :=
  claim_C9 1 [] (buildY 1 1) [(0, 0, 1)] [[(0, 0, 1)]] [] (buildY 1 1)
    [(0, 0, 1)] rfl

theorem gridVal_empty16 (i j : Nat) : gridVal empty16 i j = 0 := by
  unfold empty16 gridVal
  by_cases hi : i < 16
  · rw [show (List.replicate 16 (List.replicate 16 (0 : Nat))).getD i []
        = List.replicate 16 0 from by
      rw [List.getD_eq_getElem?_getD, List.getElem?_replicate, if_pos hi,
        Option.getD_some]]
    by_cases hj : j < 16
    · rw [List.getD_eq_getElem?_getD, List.getElem?_replicate, if_pos hj,
        Option.getD_some]
    · rw [List.getD_eq_default _ _ (by rw [List.length_replicate]; omega)]
  · rw [show (List.replicate 16 (List.replicate 16 (0 : Nat))).getD i [] = [] from
      List.getD_eq_default _ _ (by rw [List.length_replicate]; omega)]
    rfl

/-- C8: the candidate map `Y` is returned unchanged by every successful
`select`, `deselect`, and every normally-terminating `attempt`; and the
input grid is never mutated — every grid yielded by `solve` is produced
by writing a solution into a fresh copy (`writeGrid`) of the board. -/
theorem claim_C8 :
    (∀ (X : XMap) (Y : YMap) (r : Cand) cols X' Y',
      select X Y r = .ok (cols, X', Y') → Y' = Y) ∧
    (∀ (X : XMap) (Y : YMap) (r : Cand) cols X' Y',
      deselect X Y r cols = .ok (X', Y') → Y' = Y) ∧
    (∀ (fuel : Nat) (X : XMap) (Y : YMap) sol sols X' Y' sol',
      attempt fuel X Y sol = (sols, .ok (X', Y', sol')) → Y' = Y) ∧
    (∀ board : Grid, ∀ g ∈ (solve board).1, ∃ sol, g = writeGrid board sol) := by
  refine ⟨?_, ?_, ?_, ?_⟩
  · intro X Y r cols X' Y' h
    exact select_frameY h
  · intro X Y r cols X' Y' h
    exact deselect_frameY h
  · intro fuel X Y sol sols X' Y' sol' h
    exact (attempt_frame fuel X Y sol sols X' Y' sol' h).1
  · intro board g hg
    unfold solve at hg
    dsimp only at hg
    rcases hs : seedGo (buildY board.length (isqrt board.length)) board
        (cells board.length) (builtX board.length (isqrt board.length)) with e0 | X1
    · rw [hs] at hg
      dsimp only at hg
      exact absurd hg (by simp)
    · rw [hs] at hg
      dsimp only at hg
      rcases hat : attempt (4 * board.length * board.length + 1) X1
          (buildY board.length (isqrt board.length)) [] with ⟨sols, out⟩
      rw [hat] at hg
      have hg2 : g ∈ sols.map (writeGrid board) := by
        rcases out with e1 | r1
        · dsimp only at hg
          exact hg
        · dsimp only at hg
          exact hg
      obtain ⟨t, _, rfl⟩ := List.mem_map.mp hg2
      exact ⟨t, rfl⟩

theorem claim_C8_witness :
    buildY 1 1 = buildY 1 1 ∧ ∃ sol, [[1]] = writeGrid [[1]] sol :=
  ⟨claim_C8.2.2.1 1 [] (buildY 1 1) [] [[]] [] (buildY 1 1) [] rfl,
   claim_C8.2.2.2 [[1]] [[1]] (by decide)⟩

set_option maxRecDepth 4000 in
/-- C10: `select` is not atomic on failure.  Selecting the first clue of
`[[1,1,0,0],...]` succeeds and leaves `X1`; selecting the second,
conflicting clue raises a KeyError only after having already removed the
constraint `rowcol 0 1` (and its candidates) from `X`, so the store
carried by the exception differs from `X1`.  `solve` performs no
rollback: it converts the KeyError directly into the Invalid-board
failure. -/
theorem claim_C10 :
    ((okX (select (builtX 4 2) (buildY 4 2) (0, 0, 1))).bind fun X1 =>
      (errStore (select X1 (buildY 4 2) (0, 1, 1))).map fun Xe =>
        ((lookupA X1 (.rowcol 0 1)).isSome, (lookupA Xe (.rowcol 0 1)).isSome))
      = some (true, false) ∧
    solve [[1, 1, 0, 0], [0, 0, 0, 0], [0, 0, 0, 0], [0, 0, 0, 0]] =
      ([], .error .invalidBoard) := by
  constructor
  · decide
  · decide

/-- C3: on a validated board, mutually conflicting clues (two non-zero
clues violating a common constraint) make `solve` fail with the
Invalid-board error during seeding and yield no solutions; conversely,
mutually consistent clues seed without failure. -/
theorem claim_C3 {board : Grid} (hcb : checkBoard board = true) :
    (cluesConflict (isqrt board.length) board →
      solve board = ([], .error .invalidBoard)) ∧
    (¬ cluesConflict (isqrt board.length) board →
      ∃ X', seedX board = .ok X') := by
  obtain ⟨hsq, hrows, hle⟩ := checkBoard_iff.mp hcb
  have hY : ∀ p : Cand, validCand board.length p →
      lookupA (buildY board.length (isqrt board.length)) p
        = some (cons4 (isqrt board.length) p) := by
    intro p hp
    rw [lookupA_buildY, if_pos hp]
  have hvalid : ∀ rc ∈ cells board.length, gridVal board rc.1 rc.2 ≠ 0 →
      validCand board.length (rc.1, rc.2, gridVal board rc.1 rc.2) := by
    intro rc hrc h0
    obtain ⟨h1, h2⟩ := mem_cells.mp hrc
    exact ⟨h1, h2, Nat.one_le_iff_ne_zero.mpr h0, gridVal_le hcb rc.1 rc.2⟩
  constructor
  · intro hconf
    have hbad : ¬ goodS board.length (isqrt board.length) (clues board) :=
      fun hg => (goodS_clues_iff hcb).mp hg hconf
    obtain ⟨X', herr⟩ := seedGo_conflict hsq hY (cells board.length) []
      (builtX board.length (isqrt board.length)) wfX_builtX
      ⟨by simp, by simp⟩ hvalid (by simpa [clues] using hbad)
    unfold solve
    dsimp only
    rw [herr]
  · intro hcons
    have hg : goodS board.length (isqrt board.length) (clues board) :=
      (goodS_clues_iff hcb).mpr hcons
    obtain ⟨X', hok, -⟩ := seedGo_consistent hsq hY (cells board.length) []
      (builtX board.length (isqrt board.length)) wfX_builtX
      (by simpa [clues] using hg) hvalid
    refine ⟨X', ?_⟩
    unfold seedX
    exact hok

theorem claim_C3_witness :
    solve [[1, 1, 0, 0], [2, 0, 0, 0], [0, 0, 0, 0], [3, 0, 0, 0]] =
      ([], .error .invalidBoard) :=
  (claim_C3 (by decide)).1 (by decide)

set_option maxHeartbeats 2000000 in
/-- C2 (code bug): enumeration is not complete for every validated board.
The all-zero 16×16 board is validated and has a valid completion
(`grid16`), but `solve` yields no solutions at all: with every
constraint holding 16 candidates, the scan bound `L = 10` in `attempt`
leaves the loop variable unbound and an exception escapes. -/
theorem claim_C2_bug :
    checkBoard empty16 = true ∧
    completionOf empty16 grid16 ∧
    solve empty16 = ([], .error (.search .unbound)) :=
  ⟨by decide, ⟨by decide, fun i j h0 => absurd (gridVal_empty16 i j) h0⟩,
    solve_allzero_stuck gridVal_empty16 (by decide) (by decide)⟩

/-- C6 (code bug): an exception can escape `attempt` even after seeding
succeeded.  Seeding the validated all-zero 16×16 board succeeds (there
are no clues), yet the very first `attempt` step raises: every
constraint has 16 ≥ 10 candidates, so the scan never binds its loop
variable. -/
theorem claim_C6_bug :
    checkBoard empty16 = true ∧
    seedX empty16 = .ok (builtX 16 4) ∧
    (solve empty16).2 = .error (.search .unbound) := by
  refine ⟨by decide, ?_, ?_⟩
  · unfold seedX
    exact seedGo_zero _ _ fun rc _ => gridVal_empty16 rc.1 rc.2
  · rw [solve_allzero_stuck gridVal_empty16 (by decide) (by decide)]

end Sudoku
